import Mathlib

/-!
Formal model of the LSB steganography core of lab03 (`src/lab03/src/`):
the bit codec (`bits.py`), the stream-cipher payload framing (`crypto.py`),
the image metadata (`models.py`) and the embedding/extraction engine
(`steganography.py`), together with correctness theorems.

Modelling conventions:
* Python `bytes` values are `List Nat` whose elements are below 256; the
  byte bound is carried as a hypothesis where a theorem needs it.
* Python `str` values are `List Nat` of Unicode scalar values (code points
  below 0x110000 that are not surrogates); `str.encode("utf-8")` /
  `bytes.decode("utf-8")` are modelled by `utf8Encode` / `utf8Decode`.
* `hashlib.sha256` is an external collaborator; definitions take the digest
  function as an explicit parameter `h : List Nat → List Nat`, and theorems
  assume only what SHA-256 guarantees (32 output bytes, each below 256).
* Exceptions are modelled by `Except StegoError`; each Python error site is
  a distinct constructor.  An `Except.error` result of `hide_message`
  models the Python call raising before any pixel data or file is written.
* File paths, PIL image decoding/encoding and `_prepare_image` are external
  collaborators: `hide_message` / `extract_message` take the pixel buffer
  and the derived `ImageMetadata` directly, and theorems carry the
  guarantees `_prepare_image` establishes (consistent dimensions, distinct
  in-range channel indices, 8-bit channel values) as hypotheses.
-/

/-- Error conditions of the steganography core, one constructor per
Python `raise` site. -/
inductive StegoError where
  /-- `_validate_bits_per_channel`: value outside the closed range [1, 2]. -/
  | badBitsPerChannel
  /-- `struct.pack(">I", n)` with `n` not representable in 4 bytes. -/
  | packOverflow
  /-- `hide_message`/`extract_message`: no embeddable colour channels. -/
  | noChannels
  /-- `hide_message`: payload bit length exceeds the image capacity. -/
  | capacityExceeded
  /-- `hide_message`: defensive post-walk check, payload not fully embedded. -/
  | internalNotEmbedded
  /-- `parse_header`: magic tag mismatch, no embedded payload found. -/
  | noPayload
  /-- `struct.unpack(">I", b)` with fewer than 4 bytes available. -/
  | headerTooShort
  /-- `bits_to_bytes`: bit stream exhausted early, bitstream truncated. -/
  | bitstreamTruncated
  /-- `decrypt_payload`: decrypted bytes are not valid UTF-8. -/
  | payloadUnreadable
deriving DecidableEq

/-! ## Bit-level utilities -/

/-- The MSB-first bit expansion of the low `width` bits of `v`.  This is the
yield order of the inner loop of `extract_lsb_bits` in `bits.py`
(`for shift in range(bits_per_channel - 1, -1, -1): yield (chunk >> shift) & 1`). -/
def bitsOf (width v : Nat) : List Nat :=
  (List.range width).map (fun i => (v >>> (width - 1 - i)) &&& 1)

/-- Specification-side value of an MSB-first bit list (first element is the
most significant bit). -/
def msbValue (bs : List Nat) : Nat :=
  bs.foldl (fun a b => (a <<< 1) ||| b) 0

/-- The bit `position` of a byte buffer, MSB-first inside each byte: exactly
the bit selected by `BitReader.read` in `bits.py`
(`(data[position // 8] >> (7 - position % 8)) & 1`). -/
def bitAt (data : List Nat) (position : Nat) : Nat :=
  (data.getD (position / 8) 0 >>> (7 - position % 8)) &&& 1

/-- The full MSB-first bit stream of a byte buffer. -/
def bytesToBits (p : List Nat) : List Nat :=
  p.flatMap (bitsOf 8)

/-- The `w` bits of the bit stream of `p` starting at bit offset `k`. -/
def sliceBits (p : List Nat) (k w : Nat) : List Nat :=
  ((bytesToBits p).drop k).take w

/-! ## `bits.py`: `BitReader` -/

/-- `BitReader` state from `bits.py`: the immutable source buffer and the
mutable bit cursor. -/
structure BitReader where
  data : List Nat
  position : Nat
deriving DecidableEq

/-- `BitReader.total_bits`: `len(data) * 8`. -/
def BitReader.total_bits (r : BitReader) : Nat := r.data.length * 8

/-- `BitReader.remaining_bits`: `bit_length - position`. -/
def BitReader.remaining_bits (r : BitReader) : Nat := r.total_bits - r.position

/-- `BitReader.has_bits`: `position < bit_length`. -/
def BitReader.has_bits (r : BitReader) : Bool := r.position < r.total_bits

/-- The accumulation loop of `BitReader.read`: `width` iterations of
`value = (value << 1) | bit`, advancing the cursor by one bit each time.
Returns the accumulated value and the final cursor. -/
def BitReader.readLoop (data : List Nat) : Nat → Nat → Nat → Nat × Nat
  | 0, position, value => (value, position)
  | width + 1, position, value =>
      BitReader.readLoop data width (position + 1) ((value <<< 1) ||| bitAt data position)

/-- `BitReader.read` from `bits.py`: returns `none` (cursor untouched) when
fewer than `width` bits remain, otherwise the next `width` bits MSB-first as
an unsigned integer, advancing the cursor.  The mutation of `self` is
modelled by returning the new reader alongside the optional value. -/
def BitReader.read (r : BitReader) (width : Nat) : Option Nat × BitReader :=
  if r.remaining_bits < width then (none, r)
  else
    let vp := BitReader.readLoop r.data width r.position 0
    (some vp.1, ⟨r.data, vp.2⟩)

/-! ## `bits.py`: `bits_to_bytes` -/

/-- The accumulation loop of `bits_to_bytes`: `n` bits still to take from the
stream, `acc`/`count` the bits gathered towards the current byte, `result`
the completed bytes.  The Python iterator is modelled by the list `bits`;
`next` raising `StopIteration` on the empty list becomes the
`bitstreamTruncated` error.  On success the unconsumed suffix of the stream
is returned with the bytes (the Python iterator simply remains advanced). -/
def btbLoop : List Nat → Nat → Nat → Nat → List Nat →
    Except StegoError (List Nat × List Nat)
  | bits, 0, acc, count, result =>
      -- trailing incomplete byte is zero-padded on the low-order side
      if count ≠ 0 then .ok (result ++ [acc <<< (8 - count)], bits)
      else .ok (result, bits)
  | [], _ + 1, _, _, _ => .error .bitstreamTruncated
  | b :: rest, n + 1, acc, count, result =>
      let acc' := (acc <<< 1) ||| (b &&& 1)
      if count + 1 = 8 then btbLoop rest n 0 0 (result ++ [acc'])
      else btbLoop rest n acc' (count + 1) result

/-- `bits_to_bytes` from `bits.py` (the `bit_count < 0` guard is vacuous for
`Nat`). -/
def bits_to_bytes (bits : List Nat) (bit_count : Nat) :
    Except StegoError (List Nat × List Nat) :=
  btbLoop bits bit_count 0 0 []

/-- `extract_lsb_bits` from `bits.py`: the lazy generator of the low
`bits_per_channel` bits (MSB-first) of every embeddable channel of every
pixel, modelled as the finite list it yields.  Pixels are `List Nat`;
`pixel[channel_idx]` is modelled with a default of 0, and theorems assume
the channel indices are in range, as `_prepare_image` guarantees. -/
def extract_lsb_bits (pixel_data : List (List Nat)) (channel_indexes : List Nat)
    (bits_per_channel : Nat) : List Nat :=
  pixel_data.flatMap (fun pixel =>
    channel_indexes.flatMap (fun channel_idx =>
      bitsOf bits_per_channel (pixel.getD channel_idx 0 &&& ((1 <<< bits_per_channel) - 1))))

/-! ## UTF-8 codec (model of Python `str.encode("utf-8")` / strict
`bytes.decode("utf-8")`, external stdlib collaborators of `crypto.py`) -/

/-- A Unicode scalar value: what each element of a Python `str` that
`encode("utf-8")` accepts must be (below 0x110000 and not a surrogate). -/
def ValidChar (c : Nat) : Prop := c < 0x110000 ∧ (c < 0xD800 ∨ 0xE000 ≤ c)

instance : DecidablePred ValidChar := fun _ => by unfold ValidChar; infer_instance

/-- UTF-8 encoding of one scalar value, in arithmetic form
(1 to 4 bytes, payload bits split big-endian into 6-bit groups). -/
def utf8EncodeChar (c : Nat) : List Nat :=
  if c < 0x80 then [c]
  else if c < 0x800 then [0xC0 + c / 64, 0x80 + c % 64]
  else if c < 0x10000 then [0xE0 + c / 4096, 0x80 + c / 64 % 64, 0x80 + c % 64]
  else [0xF0 + c / 262144, 0x80 + c / 4096 % 64, 0x80 + c / 64 % 64, 0x80 + c % 64]

/-- `str.encode("utf-8")`. -/
def utf8Encode (s : List Nat) : List Nat := s.flatMap utf8EncodeChar

/-- UTF-8 continuation byte test. -/
def isCont (b : Nat) : Prop := 0x80 ≤ b ∧ b < 0xC0

instance : DecidablePred isCont := fun _ => by unfold isCont; infer_instance

/-- One step of strict `bytes.decode("utf-8")`: decode a single scalar value
from the front of the byte list, returning it with the remaining bytes.
Rejects stray or missing continuation bytes, overlong forms (0xC0/0xC1
leads, 0xE0 with a low second byte, 0xF0 with a low second byte), surrogates
(0xED with a high second byte) and code points above 0x10FFFF (0xF4 with a
high second byte, leads above 0xF4), exactly as CPython's strict codec does. -/
def utf8DecodeChar1 : List Nat → Option (Nat × List Nat)
  | [] => none
  | b :: rest =>
    if b < 0x80 then some (b, rest)
    else if b < 0xC2 then none
    else if b < 0xE0 then
      match rest with
      | b1 :: rest1 =>
        if isCont b1 then some ((b - 0xC0) * 64 + (b1 - 0x80), rest1) else none
      | [] => none
    else if b < 0xF0 then
      match rest with
      | b1 :: b2 :: rest2 =>
        if isCont b1 ∧ isCont b2 ∧ (b = 0xE0 → 0xA0 ≤ b1) ∧ (b = 0xED → b1 < 0xA0) then
          some ((b - 0xE0) * 4096 + (b1 - 0x80) * 64 + (b2 - 0x80), rest2)
        else none
      | _ => none
    else if b < 0xF5 then
      match rest with
      | b1 :: b2 :: b3 :: rest3 =>
        if isCont b1 ∧ isCont b2 ∧ isCont b3 ∧ (b = 0xF0 → 0x90 ≤ b1) ∧
            (b = 0xF4 → b1 < 0x90) then
          some ((b - 0xF0) * 262144 + (b1 - 0x80) * 4096 + (b2 - 0x80) * 64 +
            (b3 - 0x80), rest3)
        else none
      | _ => none
    else none

/-- Iterated single-scalar decoding.  Each successful step strictly shortens
the byte list, so fuel equal to the list length always suffices; the fuel
only makes the recursion structural. -/
def utf8DecodeLoop : Nat → List Nat → Option (List Nat)
  | _, [] => some []
  | 0, _ :: _ => none
  | fuel + 1, b :: rest =>
    match utf8DecodeChar1 (b :: rest) with
    | none => none
    | some (c, rest') => (utf8DecodeLoop fuel rest').map (c :: ·)

/-- Strict `bytes.decode("utf-8")`; `none` models `UnicodeDecodeError`. -/
def utf8Decode (l : List Nat) : Option (List Nat) := utf8DecodeLoop l.length l

/-! ## `crypto.py` -/

/-- `HEADER_MAGIC = b"LSBMSG1"`. -/
def HEADER_MAGIC : List Nat := [76, 83, 66, 77, 83, 71, 49]

/-- `HEADER_SIZE = len(HEADER_MAGIC) + 4`. -/
def HEADER_SIZE : Nat := HEADER_MAGIC.length + 4

/-- `counter.to_bytes(4, "big")` and `struct.pack(">I", n)`: the 4-byte
big-endian form of `n < 2^32` (callers check the bound). -/
def pack4BE (n : Nat) : List Nat :=
  [n / 16777216 % 256, n / 65536 % 256, n / 256 % 256, n % 256]

/-- `struct.unpack(">I", b)[0]` on exactly 4 bytes. -/
def unpack4BE (b : List Nat) : Nat :=
  b.getD 0 0 * 16777216 + b.getD 1 0 * 65536 + b.getD 2 0 * 256 + b.getD 3 0

/-- The `while len(stream) < length` loop of `derive_key_stream`, hashing
`seed || big_endian_counter` and appending each digest.  The digest function
`h` models `hashlib.sha256(...).digest()`.  Each iteration of the Python
loop appends 32 digest bytes, so `length` iterations of fuel always suffice
to reach `length` stream bytes; theorems assume `h` yields 32 bytes. -/
def deriveLoop (h : List Nat → List Nat) (seed : List Nat) (length : Nat) :
    Nat → Nat → List Nat → List Nat
  | 0, _, stream => stream
  | fuel + 1, counter, stream =>
    if stream.length < length then
      deriveLoop h seed length fuel (counter + 1) (stream ++ h (seed ++ pack4BE counter))
    else stream

/-- `derive_key_stream` from `crypto.py`: counter-mode digest stream from
the UTF-8 bytes of the password, truncated to exactly `length` bytes. -/
def derive_key_stream (h : List Nat → List Nat) (password : List Nat)
    (length : Nat) : List Nat :=
  (deriveLoop h (utf8Encode password) length length 0 []).take length

/-- `xor_encrypt` from `crypto.py`.  `password` is `Option (List Nat)` over
scalar values; Python's `if not password` treats both `None` and the empty
string as "no encryption". -/
def xor_encrypt (h : List Nat → List Nat) (data : List Nat)
    (password : Option (List Nat)) : List Nat :=
  match password with
  | none => data
  | some [] => data
  | some pw => List.zipWith (· ^^^ ·) data (derive_key_stream h pw data.length)

/-- `build_payload` from `crypto.py`: `MAGIC || len(encrypted) as u32be ||
encrypted`.  `struct.pack(">I", n)` raises `struct.error` when `n` does not
fit 4 bytes; that is the `packOverflow` branch. -/
def build_payload (h : List Nat → List Nat) (message : List Nat)
    (password : Option (List Nat)) : Except StegoError (List Nat) :=
  let body := utf8Encode message
  let encrypted := xor_encrypt h body password
  if encrypted.length < 4294967296 then
    .ok (HEADER_MAGIC ++ pack4BE encrypted.length ++ encrypted)
  else .error .packOverflow

/-- `parse_header` from `crypto.py`: check the literal magic tag, then
decode the 4-byte big-endian length.  With fewer than `HEADER_SIZE` bytes
the slice passed to `struct.unpack` is short and Python raises
`struct.error` (`headerTooShort`). -/
def parse_header (header_bytes : List Nat) : Except StegoError Nat :=
  if header_bytes.take HEADER_MAGIC.length ≠ HEADER_MAGIC then .error .noPayload
  else if ((header_bytes.drop HEADER_MAGIC.length).take 4).length ≠ 4 then
    .error .headerTooShort
  else .ok (unpack4BE ((header_bytes.drop HEADER_MAGIC.length).take 4))

/-- `decrypt_payload` from `crypto.py`: undo the keystream and UTF-8-decode;
a decode failure surfaces as the distinguishable `payloadUnreadable` error. -/
def decrypt_payload (h : List Nat → List Nat) (payload : List Nat)
    (password : Option (List Nat)) : Except StegoError (List Nat) :=
  match utf8Decode (xor_encrypt h payload password) with
  | some s => .ok s
  | none => .error .payloadUnreadable

/-! ## `models.py` -/

/-- `ImageMetadata` from `models.py`. -/
structure ImageMetadata where
  width : Nat
  height : Nat
  mode : String
  embed_indexes : List Nat
deriving DecidableEq

/-- `ImageMetadata.total_pixels`. -/
def ImageMetadata.total_pixels (m : ImageMetadata) : Nat := m.width * m.height

/-- `ImageMetadata.channels_count`. -/
def ImageMetadata.channels_count (m : ImageMetadata) : Nat := m.embed_indexes.length

/-- `ImageMetadata.capacity_bits`. -/
def ImageMetadata.capacity_bits (m : ImageMetadata) (bits_per_channel : Nat) : Nat :=
  m.total_pixels * m.channels_count * bits_per_channel

/-! ## `steganography.py` -/

def MIN_BITS_PER_CHANNEL : Nat := 1
def MAX_BITS_PER_CHANNEL : Nat := 2

/-- `_validate_bits_per_channel` from `steganography.py`. -/
def validate_bits_per_channel (value : Nat) : Except StegoError Nat :=
  if ¬(MIN_BITS_PER_CHANNEL ≤ value ∧ value ≤ MAX_BITS_PER_CHANNEL) then
    .error .badBitsPerChannel
  else .ok value

/-- One channel write of the embedding walk:
`(pixel_list[channel_idx] & ~mask) | chunk` from `hide_message`.  For the
low-bit mask `mask = (1 << bpc) - 1` and a nonnegative channel value,
Python's arbitrary-precision `value & ~mask` equals `value - (value & mask)`,
the form used here since `Nat` has no complement. -/
def embedChunk (value mask chunk : Nat) : Nat :=
  (value - (value &&& mask)) ||| chunk

/-- The inner channel loop of `hide_message`: read `bits_per_channel` bits
per embeddable channel and overwrite that channel's low bits; stop (leaving
the rest of the pixel unchanged) when the reader signals `none`. -/
def embedPixel (bits_per_channel : Nat) :
    List Nat → List Nat → BitReader → List Nat × BitReader
  | [], pixel, r => (pixel, r)
  | channel_idx :: restIdx, pixel, r =>
    match r.read bits_per_channel with
    | (none, r') => (pixel, r')
    | (some chunk, r') =>
        embedPixel bits_per_channel restIdx
          (pixel.set channel_idx
            (embedChunk (pixel.getD channel_idx 0) ((1 <<< bits_per_channel) - 1) chunk))
          r'

/-- The outer pixel loop of `hide_message`: walk pixels in storage order,
stopping entirely once the reader has no bits left.  Returns the final
pixel buffer, the final reader and the `pixels_touched` count (pixels whose
value actually changed). -/
def embedWalk (bits_per_channel : Nat) (embed_indexes : List Nat) :
    List (List Nat) → BitReader → List (List Nat) × BitReader × Nat
  | [], r => ([], r, 0)
  | pixel :: rest, r =>
    if r.has_bits then
      let pr := embedPixel bits_per_channel embed_indexes pixel r
      let w := embedWalk bits_per_channel embed_indexes rest pr.2
      (pr.1 :: w.1, w.2.1, (if pr.1 ≠ pixel then 1 else 0) + w.2.2)
    else (pixel :: rest, r, 0)

/-- `hide_message` from `steganography.py`, on the pixel buffer and metadata
that `_prepare_image` derives from the opened image (paths, PIL decoding and
the final `save` are external collaborators).  The checks appear in source
order: `bits_per_channel` validation, payload construction, embeddable
channel check, capacity check, the embedding walk, and the defensive
"payload fully embedded" invariant.  On success the new pixel buffer and
`pixels_touched` are returned; an error models the Python call raising
before any output is written. -/
def hide_message (h : List Nat → List Nat) (pixels : List (List Nat))
    (metadata : ImageMetadata) (message : List Nat) (password : Option (List Nat))
    (bits_per_channel : Nat) : Except StegoError (List (List Nat) × Nat) :=
  match validate_bits_per_channel bits_per_channel with
  | .error e => .error e
  | .ok bpc =>
    match build_payload h message password with
    | .error e => .error e
    | .ok payload =>
      let payload_bits := BitReader.total_bits ⟨payload, 0⟩
      if metadata.embed_indexes = [] then .error .noChannels
      else
        let capacity := metadata.capacity_bits bpc
        if payload_bits > capacity then .error .capacityExceeded
        else
          let walk := embedWalk bpc metadata.embed_indexes pixels ⟨payload, 0⟩
          if walk.2.1.has_bits then .error .internalNotEmbedded
          else .ok (walk.1, walk.2.2)

/-- `extract_message` from `steganography.py`, on the pixel buffer and
metadata of the opened image: rebuild the LSB bit stream, materialize and
parse the header, materialize the body, decrypt and decode. -/
def extract_message (h : List Nat → List Nat) (pixels : List (List Nat))
    (metadata : ImageMetadata) (password : Option (List Nat))
    (bits_per_channel : Nat) : Except StegoError (List Nat) :=
  match validate_bits_per_channel bits_per_channel with
  | .error e => .error e
  | .ok bpc =>
    if metadata.embed_indexes = [] then .error .noChannels
    else
      let bit_stream := extract_lsb_bits pixels metadata.embed_indexes bpc
      match bits_to_bytes bit_stream (HEADER_SIZE * 8) with
      | .error e => .error e
      | .ok (header_bytes, stream1) =>
        match parse_header header_bytes with
        | .error e => .error e
        | .ok payload_length =>
          match bits_to_bytes stream1 (payload_length * 8) with
          | .error e => .error e
          | .ok (payload_bytes, _) => decrypt_payload h payload_bytes password

/-! ## Basic lemmas about the bit-level utilities -/

theorem bitsOf_length (w v : Nat) : (bitsOf w v).length = w := by
  simp [bitsOf]

theorem bitsOf_le_one (w v : Nat) : ∀ b ∈ bitsOf w v, b ≤ 1 := by
  intro b hb
  simp only [bitsOf, List.mem_map] at hb
  obtain ⟨i, -, rfl⟩ := hb
  have : (v >>> (w - 1 - i)) &&& 1 = (v >>> (w - 1 - i)) % 2 := Nat.and_one_is_mod _
  omega

theorem bytesToBits_length (p : List Nat) : (bytesToBits p).length = p.length * 8 := by
  induction p with
  | nil => rfl
  | cons b t ih =>
    simp only [bytesToBits, List.flatMap_cons, List.length_append, bitsOf_length,
      List.length_cons] at *
    omega

theorem bytesToBits_le_one (p : List Nat) : ∀ b ∈ bytesToBits p, b ≤ 1 := by
  intro b hb
  simp only [bytesToBits, List.mem_flatMap] at hb
  obtain ⟨x, -, hx⟩ := hb
  exact bitsOf_le_one 8 x b hx

theorem bitsOf_getD (w v k : Nat) (hk : k < w) :
    (bitsOf w v).getD k 0 = (v >>> (w - 1 - k)) &&& 1 := by
  unfold bitsOf
  rw [List.getD_eq_getElem?_getD, List.getElem?_map, List.getElem?_range hk]
  rfl

theorem bytesToBits_getD (p : List Nat) (k : Nat) :
    (bytesToBits p).getD k 0 = bitAt p k := by
  induction p generalizing k with
  | nil =>
    simp [bytesToBits, bitAt, List.getD]
  | cons b t ih =>
    by_cases hk : k < 8
    · have h1 : (bytesToBits (b :: t)).getD k 0 = (bitsOf 8 b).getD k 0 := by
        simp only [bytesToBits, List.flatMap_cons]
        rw [List.getD_eq_getElem?_getD, List.getElem?_append_left (by
          simpa [bitsOf_length] using hk), ← List.getD_eq_getElem?_getD]
      rw [h1, bitsOf_getD 8 b k hk]
      unfold bitAt
      have h2 : k / 8 = 0 := Nat.div_eq_of_lt hk
      have h3 : k % 8 = k := Nat.mod_eq_of_lt hk
      rw [h2, h3]
      rfl
    · push_neg at hk
      have h1 : (bytesToBits (b :: t)).getD k 0 = (bytesToBits t).getD (k - 8) 0 := by
        simp only [bytesToBits, List.flatMap_cons]
        rw [List.getD_eq_getElem?_getD, List.getElem?_append_right (by
          simpa [bitsOf_length] using hk), ← List.getD_eq_getElem?_getD, bitsOf_length]
      rw [h1, ih]
      unfold bitAt
      have h2 : k / 8 = (k - 8) / 8 + 1 := by omega
      have h3 : k % 8 = (k - 8) % 8 := by omega
      rw [h2, h3]
      rfl

theorem msbValue_nil : msbValue [] = 0 := rfl

theorem msbValue_append_singleton (bs : List Nat) (b : Nat) :
    msbValue (bs ++ [b]) = (msbValue bs <<< 1) ||| b := by
  simp [msbValue, List.foldl_append]

theorem shiftLeft_one_or_eq (x b : Nat) (hb : b ≤ 1) : x <<< 1 ||| b = 2 * x + b := by
  have h := Nat.mul_add_lt_is_or (b := b) (i := 1) (by omega) x
  rw [Nat.shiftLeft_eq, Nat.mul_comm x (2 ^ 1), ← h]

theorem bitsOf_succ (w v : Nat) : bitsOf (w + 1) v = bitsOf w (v >>> 1) ++ [v &&& 1] := by
  unfold bitsOf
  rw [List.range_succ, List.map_append]
  congr 1
  · apply List.map_congr_left
    intro i hi
    rw [List.mem_range] at hi
    rw [← Nat.shiftRight_add]
    have he : 1 + (w - 1 - i) = w + 1 - 1 - i := by omega
    rw [he]
  · simp

theorem msbValue_bitsOf (w v : Nat) : msbValue (bitsOf w v) = v % 2 ^ w := by
  induction w generalizing v with
  | zero => simp [bitsOf, msbValue, Nat.mod_one]
  | succ w ih =>
    rw [bitsOf_succ, msbValue_append_singleton, ih]
    have h1 : v >>> 1 = v / 2 := Nat.shiftRight_eq_div_pow v 1
    have h2 : v &&& 1 = v % 2 := Nat.and_one_is_mod v
    rw [h1, h2, shiftLeft_one_or_eq _ _ (by omega : v % 2 ≤ 1)]
    have h4 : 2 ^ (w + 1) = 2 * 2 ^ w := by ring
    rw [h4, Nat.mod_mul]
    omega

theorem msbValue_lt (bs : List Nat) (hb : ∀ b ∈ bs, b ≤ 1) :
    msbValue bs < 2 ^ bs.length := by
  induction bs using List.reverseRecOn with
  | nil => simp [msbValue]
  | append_singleton bs b ih =>
    rw [msbValue_append_singleton]
    have hb' : ∀ x ∈ bs, x ≤ 1 := fun x hx => hb x (List.mem_append_left _ hx)
    have h1 := ih hb'
    have h2 : b ≤ 1 := hb b (by simp)
    rw [shiftLeft_one_or_eq _ _ h2]
    have hlen : (bs ++ [b]).length = bs.length + 1 := by simp
    rw [hlen]
    have hpow : 2 ^ (bs.length + 1) = 2 ^ bs.length * 2 := by ring
    omega

theorem bitsOf_msbValue (bs : List Nat) (hb : ∀ b ∈ bs, b ≤ 1) :
    bitsOf bs.length (msbValue bs) = bs := by
  induction bs using List.reverseRecOn with
  | nil => simp [bitsOf, msbValue]
  | append_singleton bs b ih =>
    have hb' : ∀ x ∈ bs, x ≤ 1 := fun x hx => hb x (List.mem_append_left _ hx)
    have h2 : b ≤ 1 := hb b (by simp)
    have hv : msbValue (bs ++ [b]) = 2 * msbValue bs + b := by
      rw [msbValue_append_singleton, shiftLeft_one_or_eq _ _ h2]
    have hlen : (bs ++ [b]).length = bs.length + 1 := by simp
    rw [hlen, hv, bitsOf_succ]
    have h3 : (2 * msbValue bs + b) >>> 1 = msbValue bs := by
      rw [Nat.shiftRight_eq_div_pow]
      omega
    have h4 : (2 * msbValue bs + b) &&& 1 = b := by
      rw [Nat.and_one_is_mod]
      omega
    rw [h3, h4, ih hb']

theorem readLoop_spec (data : List Nat) (w : Nat) :
    ∀ k a, BitReader.readLoop data w k a =
      (((List.range w).map (fun i => bitAt data (k + i))).foldl
        (fun x b => (x <<< 1) ||| b) a, k + w) := by
  induction w with
  | zero => intro k a; simp [BitReader.readLoop]
  | succ w ih =>
    intro k a
    show BitReader.readLoop data w (k + 1) ((a <<< 1) ||| bitAt data k) = _
    rw [ih, List.range_succ_eq_map, List.map_cons, List.map_map, List.foldl_cons]
    have hf : ((fun i => bitAt data (k + i)) ∘ Nat.succ) =
        fun i => bitAt data (k + 1 + i) := by
      funext i
      simp only [Function.comp_apply]
      congr 1
      omega
    rw [hf]
    have hk : k + 0 = k := rfl
    rw [hk]
    congr 1
    omega

theorem drop_take_eq_map_getD (l : List Nat) (k w : Nat) (h : k + w ≤ l.length) :
    (l.drop k).take w = (List.range w).map (fun i => l.getD (k + i) 0) := by
  apply List.ext_getElem
  · simp only [List.length_take, List.length_drop, List.length_map, List.length_range]
    omega
  · intro i h1 h2
    simp only [List.getElem_take, List.getElem_drop, List.getElem_map, List.getElem_range]
    rw [List.getD_eq_getElem l 0 (by
      simp only [List.length_take, List.length_drop] at h1
      omega)]

theorem sliceBits_spec (p : List Nat) (k w : Nat) (h : k + w ≤ p.length * 8) :
    sliceBits p k w = (List.range w).map (fun i => bitAt p (k + i)) := by
  unfold sliceBits
  rw [drop_take_eq_map_getD _ _ _ (by rw [bytesToBits_length]; omega)]
  apply List.map_congr_left
  intro i _
  exact bytesToBits_getD p (k + i)

theorem sliceBits_le_one (p : List Nat) (k w : Nat) : ∀ b ∈ sliceBits p k w, b ≤ 1 := by
  intro b hb
  unfold sliceBits at hb
  exact bytesToBits_le_one p b (List.mem_of_mem_drop (List.mem_of_mem_take hb))

theorem sliceBits_length (p : List Nat) (k w : Nat) (h : k + w ≤ p.length * 8) :
    (sliceBits p k w).length = w := by
  unfold sliceBits
  rw [List.length_take, List.length_drop, bytesToBits_length]
  omega

theorem BitReader.read_spec (p : List Nat) (k w : Nat) (h : k + w ≤ p.length * 8) :
    BitReader.read ⟨p, k⟩ w = (some (msbValue (sliceBits p k w)), ⟨p, k + w⟩) := by
  unfold BitReader.read
  rw [if_neg (by unfold BitReader.remaining_bits BitReader.total_bits; simp; omega)]
  simp only [readLoop_spec]
  rw [sliceBits_spec p k w h]
  rfl

theorem BitReader.read_none (r : BitReader) (w : Nat) (h : r.remaining_bits < w) :
    r.read w = (none, r) := by
  unfold BitReader.read
  rw [if_pos h]

/-- C4: `BitReader.read` contract: with fewer than `width` unread bits it
returns `none` and leaves the cursor unchanged; otherwise it returns the
unsigned integer given by the next `width` bits MSB-first and advances the
cursor by exactly `width`; the cursor never decreases. -/
theorem bitreader_read_contract (r : BitReader) (width : Nat)
    (hw : 1 ≤ width ∧ width ≤ 32) :
    (r.remaining_bits < width → r.read width = (none, r)) ∧
    (width ≤ r.remaining_bits →
      r.read width =
        (some (msbValue (sliceBits r.data r.position width)),
          ⟨r.data, r.position + width⟩)) ∧
    r.position ≤ (r.read width).2.position := by
  obtain ⟨p, k⟩ := r
  refine ⟨fun h => BitReader.read_none _ _ h, fun h => ?_, ?_⟩
  · apply BitReader.read_spec
    unfold BitReader.remaining_bits BitReader.total_bits at h
    simp only at h
    omega
  · by_cases h : BitReader.remaining_bits ⟨p, k⟩ < width
    · rw [BitReader.read_none _ _ h]
    · push_neg at h
      rw [BitReader.read_spec p k width (by
        unfold BitReader.remaining_bits BitReader.total_bits at h
        simp only at h
        omega)]
      simp only
      omega

/-- Witness for C4 at a concrete reader and width. -/
theorem bitreader_read_contract_witness :
    (1 ≤ 8 ∧ 8 ≤ 32) ∧
    (((BitReader.mk [170, 5] 4).remaining_bits < 8 →
        (BitReader.mk [170, 5] 4).read 8 = (none, BitReader.mk [170, 5] 4)) ∧
      (8 ≤ (BitReader.mk [170, 5] 4).remaining_bits →
        (BitReader.mk [170, 5] 4).read 8 =
          (some (msbValue (sliceBits (BitReader.mk [170, 5] 4).data
            (BitReader.mk [170, 5] 4).position 8)),
            ⟨(BitReader.mk [170, 5] 4).data, (BitReader.mk [170, 5] 4).position + 8⟩)) ∧
      (BitReader.mk [170, 5] 4).position ≤ ((BitReader.mk [170, 5] 4).read 8).2.position) :=
  ⟨by decide, bitreader_read_contract (BitReader.mk [170, 5] 4) 8 (by decide)⟩

/-- C3: the embedding capacity in bits is
`width * height * count(embeddable channels) * bits_per_channel`. -/
theorem capacity_formula (m : ImageMetadata) (n : Nat) (_hn : n = 1 ∨ n = 2) :
    m.capacity_bits n = m.width * m.height * m.embed_indexes.length * n := rfl

/-- Witness for C3 at concrete metadata and a valid bits-per-channel. -/
theorem capacity_formula_witness :
    ((2 : Nat) = 1 ∨ (2 : Nat) = 2) ∧
    (ImageMetadata.mk 4 3 "RGB" [0, 1, 2]).capacity_bits 2 =
      4 * 3 * ([0, 1, 2] : List Nat).length * 2 :=
  ⟨by decide, capacity_formula (ImageMetadata.mk 4 3 "RGB" [0, 1, 2]) 2 (by decide)⟩

/-! ## The bit-to-byte packer specification and the `bits_to_bytes` contract -/

/-- Specification-side value of one output byte of the packer: the MSB-first
value of up to 8 bits, zero-padded on the low-order side when fewer than 8
bits are present. -/
def packByte (chunk : List Nat) : Nat := msbValue chunk <<< (8 - chunk.length)

/-- Specification-side packer: group an MSB-first bit list into bytes of 8,
the final group zero-padded on the low-order side. -/
def packBits : List Nat → List Nat
  | [] => []
  | b :: t => packByte ((b :: t).take 8) :: packBits ((b :: t).drop 8)
termination_by bs => bs.length
decreasing_by simp [List.length_drop]; omega

theorem packBits_nil : packBits [] = [] := by unfold packBits; rfl

theorem packBits_cons (b : Nat) (t : List Nat) :
    packBits (b :: t) = packByte ((b :: t).take 8) :: packBits ((b :: t).drop 8) := by
  rw [packBits]

theorem packBits_short (bs : List Nat) (h0 : bs ≠ []) (h8 : bs.length < 8) :
    packBits bs = [packByte bs] := by
  cases bs with
  | nil => exact absurd rfl h0
  | cons b t =>
    rw [packBits_cons]
    rw [List.take_of_length_le (by omega), List.drop_of_length_le (by omega), packBits_nil]

theorem packBits_append_eight (c tl : List Nat) (hc : c.length = 8) :
    packBits (c ++ tl) = packByte c :: packBits tl := by
  cases c with
  | nil => simp at hc
  | cons b t =>
    have h1 : (b :: (t ++ tl)).take 8 = b :: t := by
      rw [← List.cons_append]
      exact List.take_left' hc
    have h2 : (b :: (t ++ tl)).drop 8 = tl := by
      rw [← List.cons_append]
      exact List.drop_left' hc
    rw [List.cons_append, packBits_cons, h1, h2]

theorem btbLoop_spec (n : Nat) : ∀ bits pending result,
    pending.length < 8 → (∀ x ∈ pending, x ≤ 1) →
    (n ≤ bits.length →
      btbLoop bits n (msbValue pending) pending.length result =
        .ok (result ++ packBits (pending ++ (bits.take n).map (· &&& 1)), bits.drop n)) ∧
    (bits.length < n →
      btbLoop bits n (msbValue pending) pending.length result =
        .error .bitstreamTruncated) := by
  induction n with
  | zero =>
    intro bits pending result hlen _
    refine ⟨fun _ => ?_, fun habs => by omega⟩
    simp only [List.take_zero, List.map_nil, List.append_nil, List.drop_zero]
    by_cases hp : pending = []
    · subst hp
      simp [btbLoop, packBits_nil]
    · have hne : pending.length ≠ 0 := by
        cases pending with
        | nil => exact absurd rfl hp
        | cons x xs => simp
      simp only [btbLoop, if_pos hne]
      rw [packBits_short pending hp hlen]
      rfl
  | succ n ih =>
    intro bits pending result hlen hones
    cases bits with
    | nil =>
      refine ⟨fun habs => by simp at habs, fun _ => ?_⟩
      simp [btbLoop]
    | cons b rest =>
      have hacc : (msbValue pending <<< 1) ||| (b &&& 1) =
          msbValue (pending ++ [b &&& 1]) :=
        (msbValue_append_singleton pending (b &&& 1)).symm
      have hb1 : b &&& 1 ≤ 1 := by
        rw [Nat.and_one_is_mod]
        omega
      have hones' : ∀ x ∈ pending ++ [b &&& 1], x ≤ 1 := by
        intro x hx
        rcases List.mem_append.mp hx with hx | hx
        · exact hones x hx
        · simp at hx
          omega
      have hp8 : (pending ++ [b &&& 1]).length = pending.length + 1 := by simp
      by_cases h8 : pending.length + 1 = 8
      · have IH := ih rest [] (result ++ [msbValue (pending ++ [b &&& 1])])
          (by simp) (by simp)
        simp only [msbValue_nil, List.length_nil, List.nil_append] at IH
        constructor
        · intro hle
          simp only [btbLoop, if_pos h8, hacc]
          rw [IH.1 (by simpa using hle)]
          have hright : pending ++ (b &&& 1) :: (rest.take n).map (· &&& 1) =
              (pending ++ [b &&& 1]) ++ (rest.take n).map (· &&& 1) :=
            List.append_cons pending (b &&& 1) ((rest.take n).map (· &&& 1))
          rw [List.take_succ_cons, List.map_cons, hright,
            packBits_append_eight (pending ++ [b &&& 1]) _ (by omega)]
          unfold packByte
          rw [show (pending ++ [b &&& 1]).length = 8 by omega, Nat.sub_self,
            Nat.shiftLeft_zero]
          simp [List.append_assoc]
        · intro hlt
          simp only [btbLoop, if_pos h8, hacc]
          exact IH.2 (by simp at hlt; omega)
      · have IH := ih rest (pending ++ [b &&& 1]) result (by omega) hones'
        rw [hp8] at IH
        constructor
        · intro hle
          simp only [btbLoop, if_neg h8, hacc]
          rw [IH.1 (by simpa using hle)]
          rw [List.take_succ_cons, List.map_cons,
            List.append_cons pending (b &&& 1) ((rest.take n).map (· &&& 1))]
          simp
        · intro hlt
          simp only [btbLoop, if_neg h8, hacc]
          exact IH.2 (by simp at hlt; omega)

/-- C5: `bits_to_bytes` packs 8 bits per byte MSB-first, zero-padding an
incomplete final group on the low-order side, and fails with the fatal
`bitstreamTruncated` error exactly when the bit sequence exhausts before
`bit_count` bits have been consumed. -/
theorem bits_to_bytes_contract (bits : List Nat) (n : Nat) :
    (n ≤ bits.length →
      bits_to_bytes bits n =
        .ok (packBits ((bits.take n).map (· &&& 1)), bits.drop n)) ∧
    (bits.length < n → bits_to_bytes bits n = .error .bitstreamTruncated) := by
  have h := btbLoop_spec n bits [] [] (by simp) (by simp)
  unfold bits_to_bytes
  simpa using h

/-- Witness for C5: a complete pack of 10 bits and a truncated request. -/
theorem bits_to_bytes_contract_witness :
    (10 ≤ ([1, 0, 1, 1, 0, 0, 1, 0, 1, 1] : List Nat).length ∧
      bits_to_bytes [1, 0, 1, 1, 0, 0, 1, 0, 1, 1] 10 =
        .ok (packBits ((([1, 0, 1, 1, 0, 0, 1, 0, 1, 1] : List Nat).take 10).map (· &&& 1)),
          ([1, 0, 1, 1, 0, 0, 1, 0, 1, 1] : List Nat).drop 10)) ∧
    (([1, 0, 1, 1, 0, 0, 1, 0] : List Nat).length < 12 ∧
      bits_to_bytes [1, 0, 1, 1, 0, 0, 1, 0] 12 = .error .bitstreamTruncated) :=
  ⟨⟨by decide, (bits_to_bytes_contract [1, 0, 1, 1, 0, 0, 1, 0, 1, 1] 10).1 (by decide)⟩,
    ⟨by decide, (bits_to_bytes_contract [1, 0, 1, 1, 0, 0, 1, 0] 12).2 (by decide)⟩⟩
/-! ## UTF-8 round-trip lemmas -/

theorem utf8DecodeChar1_length (l : List Nat) (c : Nat) (rest : List Nat)
    (h : utf8DecodeChar1 l = some (c, rest)) : rest.length < l.length := by
  match l with
  | [] => simp [utf8DecodeChar1] at h
  | b :: r =>
    unfold utf8DecodeChar1 at h
    repeat' split at h
    all_goals simp_all
    all_goals omega

theorem utf8DecodeLoop_fuel (fuel : Nat) : ∀ (fuel' : Nat) (l : List Nat),
    l.length ≤ fuel → l.length ≤ fuel' →
    utf8DecodeLoop fuel l = utf8DecodeLoop fuel' l := by
  induction fuel with
  | zero =>
    intro fuel' l hl _
    have : l = [] := List.eq_nil_of_length_eq_zero (by omega)
    subst this
    cases fuel' <;> rfl
  | succ fuel ih =>
    intro fuel' l hl hl'
    cases l with
    | nil => cases fuel' <;> rfl
    | cons b rest =>
      cases fuel' with
      | zero => simp at hl'
      | succ fuel'' =>
        show (match utf8DecodeChar1 (b :: rest) with
          | none => none
          | some (c, rest') => (utf8DecodeLoop fuel rest').map (c :: ·)) =
          (match utf8DecodeChar1 (b :: rest) with
          | none => none
          | some (c, rest') => (utf8DecodeLoop fuel'' rest').map (c :: ·))
        cases hd : utf8DecodeChar1 (b :: rest) with
        | none => rfl
        | some cr =>
          obtain ⟨c, rest'⟩ := cr
          have hlen := utf8DecodeChar1_length _ _ _ hd
          simp only [List.length_cons] at hlen hl hl'
          simp only
          rw [ih fuel'' rest' (by omega) (by omega)]

theorem utf8Decode_nil : utf8Decode [] = some [] := rfl

theorem utf8Decode_cons_eq (b : Nat) (rest : List Nat) :
    utf8Decode (b :: rest) =
      match utf8DecodeChar1 (b :: rest) with
      | none => none
      | some (c, rest') => (utf8Decode rest').map (c :: ·) := by
  show utf8DecodeLoop (b :: rest).length (b :: rest) = _
  rw [List.length_cons]
  show (match utf8DecodeChar1 (b :: rest) with
    | none => none
    | some (c, rest') => (utf8DecodeLoop rest.length rest').map (c :: ·)) = _
  cases hd : utf8DecodeChar1 (b :: rest) with
  | none => rfl
  | some cr =>
    obtain ⟨c, rest'⟩ := cr
    have hlen := utf8DecodeChar1_length _ _ _ hd
    simp only [List.length_cons] at hlen
    simp only
    unfold utf8Decode
    rw [utf8DecodeLoop_fuel rest.length rest'.length rest' (by omega) (by omega)]

theorem utf8DecodeChar1_encodeChar (c : Nat) (hc : ValidChar c) (rest : List Nat) :
    utf8DecodeChar1 (utf8EncodeChar c ++ rest) = some (c, rest) := by
  obtain ⟨h1, h2⟩ := hc
  by_cases hA : c < 0x80
  · rw [utf8EncodeChar, if_pos hA]
    show utf8DecodeChar1 (c :: rest) = _
    simp only [utf8DecodeChar1]
    rw [if_pos hA]
  · by_cases hB : c < 0x800
    · rw [utf8EncodeChar, if_neg hA, if_pos hB]
      show utf8DecodeChar1 ((0xC0 + c / 64) :: (0x80 + c % 64) :: rest) = _
      simp only [utf8DecodeChar1]
      rw [if_neg (by omega), if_neg (by omega), if_pos (by omega),
        if_pos (show isCont (0x80 + c % 64) by unfold isCont; omega)]
      have he : ((0xC0 + c / 64) - 0xC0) * 64 + ((0x80 + c % 64) - 0x80) = c := by omega
      rw [he]
    · by_cases hC : c < 0x10000
      · rw [utf8EncodeChar, if_neg hA, if_neg hB, if_pos hC]
        show utf8DecodeChar1
          ((0xE0 + c / 4096) :: (0x80 + c / 64 % 64) :: (0x80 + c % 64) :: rest) = _
        simp only [utf8DecodeChar1]
        rw [if_neg (by omega), if_neg (by omega), if_neg (by omega), if_pos (by omega),
          if_pos (by unfold isCont; omega)]
        have he : ((0xE0 + c / 4096) - 0xE0) * 4096 + ((0x80 + c / 64 % 64) - 0x80) * 64 +
            ((0x80 + c % 64) - 0x80) = c := by omega
        rw [he]
      · rw [utf8EncodeChar, if_neg hA, if_neg hB, if_neg hC]
        show utf8DecodeChar1 ((0xF0 + c / 262144) :: (0x80 + c / 4096 % 64) ::
          (0x80 + c / 64 % 64) :: (0x80 + c % 64) :: rest) = _
        simp only [utf8DecodeChar1]
        rw [if_neg (by omega), if_neg (by omega), if_neg (by omega), if_neg (by omega),
          if_pos (by omega), if_pos (by unfold isCont; omega)]
        have he : ((0xF0 + c / 262144) - 0xF0) * 262144 +
            ((0x80 + c / 4096 % 64) - 0x80) * 4096 +
            ((0x80 + c / 64 % 64) - 0x80) * 64 + ((0x80 + c % 64) - 0x80) = c := by omega
        rw [he]

theorem utf8EncodeChar_ne_nil (c : Nat) : utf8EncodeChar c ≠ [] := by
  unfold utf8EncodeChar
  repeat' split
  all_goals simp

theorem utf8Decode_eq_of_ne_nil (l : List Nat) (hl : l ≠ []) :
    utf8Decode l =
      match utf8DecodeChar1 l with
      | none => none
      | some (c, rest') => (utf8Decode rest').map (c :: ·) := by
  cases l with
  | nil => exact absurd rfl hl
  | cons b rest => exact utf8Decode_cons_eq b rest

theorem utf8Decode_encodeChar (c : Nat) (hc : ValidChar c) (rest : List Nat) :
    utf8Decode (utf8EncodeChar c ++ rest) = (utf8Decode rest).map (c :: ·) := by
  rw [utf8Decode_eq_of_ne_nil _ (by
    intro hnil
    exact utf8EncodeChar_ne_nil c (List.append_eq_nil.mp hnil).1)]
  rw [utf8DecodeChar1_encodeChar c hc rest]

theorem utf8Decode_encode (s : List Nat) (hs : ∀ c ∈ s, ValidChar c) :
    utf8Decode (utf8Encode s) = some s := by
  induction s with
  | nil => rfl
  | cons c t ih =>
    have h1 : utf8Encode (c :: t) = utf8EncodeChar c ++ utf8Encode t := by
      simp [utf8Encode]
    rw [h1, utf8Decode_encodeChar c (hs c (by simp)) _,
      ih (fun x hx => hs x (by simp [hx]))]
    rfl

theorem utf8EncodeChar_of_decodeChar1 (l : List Nat) (c : Nat) (rest : List Nat)
    (h : utf8DecodeChar1 l = some (c, rest)) : utf8EncodeChar c ++ rest = l := by
  match l with
  | [] => simp [utf8DecodeChar1] at h
  | b :: r =>
    simp only [utf8DecodeChar1] at h
    repeat' split at h
    all_goals simp_all [isCont]
    all_goals
      first
      | (rw [utf8EncodeChar, if_pos (by omega)]
         simp [List.cons_append, List.cons.injEq]
         try omega)
      | (rw [utf8EncodeChar, if_neg (by omega), if_pos (by omega)]
         simp [List.cons_append, List.cons.injEq]
         try omega)
      | (rw [utf8EncodeChar, if_neg (by omega), if_neg (by omega), if_pos (by omega)]
         simp [List.cons_append, List.cons.injEq]
         try omega)
      | (rw [utf8EncodeChar, if_neg (by omega), if_neg (by omega), if_neg (by omega)]
         simp [List.cons_append, List.cons.injEq]
         try omega)

theorem utf8Encode_of_decode_aux (n : Nat) : ∀ l : List Nat, l.length ≤ n →
    ∀ cs : List Nat, utf8Decode l = some cs → utf8Encode cs = l := by
  induction n with
  | zero =>
    intro l hl cs h
    have hnil : l = [] := List.eq_nil_of_length_eq_zero (by omega)
    subst hnil
    rw [utf8Decode_nil] at h
    simp at h
    subst h
    rfl
  | succ n ih =>
    intro l hl cs h
    cases l with
    | nil =>
      rw [utf8Decode_nil] at h
      simp at h
      subst h
      rfl
    | cons b rest =>
      rw [utf8Decode_cons_eq] at h
      cases hd : utf8DecodeChar1 (b :: rest) with
      | none => rw [hd] at h; simp at h
      | some cr =>
        obtain ⟨c, rest'⟩ := cr
        rw [hd] at h
        simp only [] at h
        cases hrec : utf8Decode rest' with
        | none => rw [hrec] at h; simp at h
        | some cs' =>
          rw [hrec] at h
          simp at h
          subst h
          have hlen := utf8DecodeChar1_length _ _ _ hd
          simp only [List.length_cons] at hlen hl
          have henc := ih rest' (by omega) cs' hrec
          have hchar := utf8EncodeChar_of_decodeChar1 _ _ _ hd
          have h1 : utf8Encode (c :: cs') = utf8EncodeChar c ++ utf8Encode cs' := by
            simp [utf8Encode]
          rw [h1, henc, hchar]

theorem utf8Encode_of_decode (l cs : List Nat) (h : utf8Decode l = some cs) :
    utf8Encode cs = l :=
  utf8Encode_of_decode_aux l.length l (Nat.le_refl _) cs h

/-! ## Lemmas about `crypto.py` -/

theorem pack4BE_length (n : Nat) : (pack4BE n).length = 4 := rfl

theorem pack4BE_lt (n : Nat) : ∀ b ∈ pack4BE n, b < 256 := by
  intro b hb
  simp [pack4BE] at hb
  rcases hb with h | h | h | h <;> omega

theorem unpack4BE_pack4BE (n : Nat) (hn : n < 4294967296) :
    unpack4BE (pack4BE n) = n := by
  simp [pack4BE, unpack4BE]
  omega

theorem HEADER_MAGIC_length : HEADER_MAGIC.length = 7 := rfl

theorem HEADER_SIZE_eq : HEADER_SIZE = 11 := rfl

theorem deriveLoop_length (h : List Nat → List Nat) (seed : List Nat) (length : Nat)
    (Hh : ∀ x, (h x).length = 32) :
    ∀ (fuel counter : Nat) (stream : List Nat),
      length ≤ stream.length + fuel * 32 →
      length ≤ (deriveLoop h seed length fuel counter stream).length := by
  intro fuel
  induction fuel with
  | zero =>
    intro counter stream hb
    simpa [deriveLoop] using by omega
  | succ fuel ih =>
    intro counter stream hb
    show length ≤ (if stream.length < length then
      deriveLoop h seed length fuel (counter + 1) (stream ++ h (seed ++ pack4BE counter))
      else stream).length
    by_cases hc : stream.length < length
    · rw [if_pos hc]
      apply ih
      rw [List.length_append, Hh]
      omega
    · rw [if_neg hc]
      omega

theorem deriveLoop_bytes (h : List Nat → List Nat) (seed : List Nat) (length : Nat)
    (Hh : ∀ x, ∀ b ∈ h x, b < 256) :
    ∀ (fuel counter : Nat) (stream : List Nat),
      (∀ b ∈ stream, b < 256) →
      ∀ b ∈ deriveLoop h seed length fuel counter stream, b < 256 := by
  intro fuel
  induction fuel with
  | zero =>
    intro counter stream hs
    simpa [deriveLoop] using hs
  | succ fuel ih =>
    intro counter stream hs
    show ∀ b ∈ (if stream.length < length then
      deriveLoop h seed length fuel (counter + 1) (stream ++ h (seed ++ pack4BE counter))
      else stream), b < 256
    by_cases hc : stream.length < length
    · rw [if_pos hc]
      apply ih
      intro b hb
      rcases List.mem_append.mp hb with hb | hb
      · exact hs b hb
      · exact Hh _ b hb
    · rw [if_neg hc]
      exact hs

theorem derive_key_stream_length (h : List Nat → List Nat) (password : List Nat)
    (length : Nat) (Hh : ∀ x, (h x).length = 32) :
    (derive_key_stream h password length).length = length := by
  unfold derive_key_stream
  rw [List.length_take]
  have := deriveLoop_length h (utf8Encode password) length Hh length 0 []
    (by simp; omega)
  omega

theorem derive_key_stream_bytes (h : List Nat → List Nat) (password : List Nat)
    (length : Nat) (Hh : ∀ x, ∀ b ∈ h x, b < 256) :
    ∀ b ∈ derive_key_stream h password length, b < 256 := by
  intro b hb
  unfold derive_key_stream at hb
  exact deriveLoop_bytes h (utf8Encode password) length Hh length 0 [] (by simp) b
    (List.mem_of_mem_take hb)

theorem zipWith_xor_lt (l1 l2 : List Nat) (h1 : ∀ b ∈ l1, b < 256)
    (h2 : ∀ b ∈ l2, b < 256) :
    ∀ b ∈ List.zipWith (· ^^^ ·) l1 l2, b < 256 := by
  induction l1 generalizing l2 with
  | nil => simp
  | cons a t ih =>
    cases l2 with
    | nil => simp
    | cons b u =>
      intro x hx
      rw [List.zipWith_cons_cons] at hx
      rcases List.mem_cons.mp hx with hx | hx
      · subst hx
        have ha : a < 2 ^ 8 := by have := h1 a (by simp); norm_num; omega
        have hb : b < 2 ^ 8 := by have := h2 b (by simp); norm_num; omega
        have := Nat.xor_lt_two_pow ha hb
        norm_num at this
        omega
      · exact ih u (fun y hy => h1 y (List.mem_cons_of_mem a hy))
          (fun y hy => h2 y (List.mem_cons_of_mem b hy)) x hx

theorem zipWith_xor_cancel (d : List Nat) : ∀ ks : List Nat, d.length ≤ ks.length →
    List.zipWith (· ^^^ ·) (List.zipWith (· ^^^ ·) d ks) ks = d := by
  induction d with
  | nil => intro ks _; simp
  | cons a t ih =>
    intro ks hk
    cases ks with
    | nil => simp at hk
    | cons b u =>
      rw [List.zipWith_cons_cons, List.zipWith_cons_cons, Nat.xor_cancel_right]
      rw [ih u (by simp at hk; omega)]

theorem xor_encrypt_none (h : List Nat → List Nat) (data : List Nat) :
    xor_encrypt h data none = data := rfl

theorem xor_encrypt_empty (h : List Nat → List Nat) (data : List Nat) :
    xor_encrypt h data (some []) = data := rfl

theorem xor_encrypt_length (h : List Nat → List Nat) (data : List Nat)
    (password : Option (List Nat)) (Hh : ∀ x, (h x).length = 32) :
    (xor_encrypt h data password).length = data.length := by
  match password with
  | none => rfl
  | some [] => rfl
  | some (p :: ps) =>
    show (List.zipWith (· ^^^ ·) data (derive_key_stream h (p :: ps) data.length)).length
      = data.length
    rw [List.length_zipWith, derive_key_stream_length h (p :: ps) data.length Hh]
    omega

theorem xor_encrypt_bytes (h : List Nat → List Nat) (data : List Nat)
    (password : Option (List Nat)) (hd : ∀ b ∈ data, b < 256)
    (Hh : ∀ x, ∀ b ∈ h x, b < 256) :
    ∀ b ∈ xor_encrypt h data password, b < 256 := by
  match password with
  | none => exact hd
  | some [] => exact hd
  | some (p :: ps) =>
    exact zipWith_xor_lt data _ hd (derive_key_stream_bytes h (p :: ps) data.length Hh)

theorem xor_encrypt_cancel (h : List Nat → List Nat) (data : List Nat)
    (password : Option (List Nat)) (Hh : ∀ x, (h x).length = 32) :
    xor_encrypt h (xor_encrypt h data password) password = data := by
  match password with
  | none => rfl
  | some [] => rfl
  | some (p :: ps) =>
    show xor_encrypt h (List.zipWith (· ^^^ ·) data
      (derive_key_stream h (p :: ps) data.length)) (some (p :: ps)) = data
    have hlen : (List.zipWith (· ^^^ ·) data
        (derive_key_stream h (p :: ps) data.length)).length = data.length := by
      rw [List.length_zipWith, derive_key_stream_length h (p :: ps) data.length Hh]
      omega
    show List.zipWith (· ^^^ ·) _ (derive_key_stream h (p :: ps) _) = data
    rw [hlen]
    exact zipWith_xor_cancel data _
      (by rw [derive_key_stream_length h (p :: ps) data.length Hh])

theorem utf8EncodeChar_lt (c : Nat) (hc : ValidChar c) : ∀ b ∈ utf8EncodeChar c, b < 256 := by
  obtain ⟨h1, -⟩ := hc
  unfold utf8EncodeChar
  repeat' split
  all_goals intro b hb
  all_goals simp at hb
  all_goals omega

theorem utf8Encode_bytes (s : List Nat) (hs : ∀ c ∈ s, ValidChar c) :
    ∀ b ∈ utf8Encode s, b < 256 := by
  intro b hb
  simp only [utf8Encode, List.mem_flatMap] at hb
  obtain ⟨c, hc, hb⟩ := hb
  exact utf8EncodeChar_lt c (hs c hc) b hb

theorem build_payload_eq (h : List Nat → List Nat) (msg : List Nat)
    (pw : Option (List Nat))
    (hlt : (xor_encrypt h (utf8Encode msg) pw).length < 4294967296) :
    build_payload h msg pw =
      .ok (HEADER_MAGIC ++ pack4BE (xor_encrypt h (utf8Encode msg) pw).length ++
        xor_encrypt h (utf8Encode msg) pw) := by
  unfold build_payload
  rw [if_pos hlt]

theorem build_payload_bytes (h : List Nat → List Nat) (msg : List Nat)
    (pw : Option (List Nat)) (hs : ∀ c ∈ msg, ValidChar c)
    (Hh : ∀ x, ∀ b ∈ h x, b < 256) :
    ∀ b ∈ HEADER_MAGIC ++ pack4BE (xor_encrypt h (utf8Encode msg) pw).length ++
      xor_encrypt h (utf8Encode msg) pw, b < 256 := by
  intro b hb
  rcases List.mem_append.mp hb with hb | hb
  · rcases List.mem_append.mp hb with hb | hb
    · revert hb
      simp [HEADER_MAGIC]
      omega
    · exact pack4BE_lt _ b hb
  · exact xor_encrypt_bytes h (utf8Encode msg) pw (utf8Encode_bytes msg hs) Hh b hb

theorem parse_header_take11_noPayload (buf : List Nat)
    (hne : buf.take 7 ≠ HEADER_MAGIC) :
    parse_header (buf.take 11) = .error .noPayload := by
  unfold parse_header
  rw [if_pos]
  rw [show HEADER_MAGIC.length = 7 from rfl, List.take_take]
  simpa using hne

theorem parse_header_append (tail : List Nat) (h4 : 4 ≤ tail.length) :
    parse_header (HEADER_MAGIC ++ tail) = .ok (unpack4BE (tail.take 4)) := by
  unfold parse_header
  rw [List.take_left' rfl, List.drop_left' rfl]
  rw [if_neg (fun hne => hne rfl)]
  rw [if_neg (by simp [List.length_take]; omega)]

theorem parse_header_take11_ok (buf : List Nat) (hlen : 11 ≤ buf.length)
    (heq : buf.take 7 = HEADER_MAGIC) :
    parse_header (buf.take 11) = .ok (unpack4BE ((buf.drop 7).take 4)) := by
  have h1 : buf.take 7 = (buf.take 11).take 7 := by
    rw [List.take_take]
    norm_num
  have h2 := List.take_drop 7 4 buf
  norm_num at h2
  have hsplit : buf.take 11 = HEADER_MAGIC ++ (buf.drop 7).take 4 := by
    rw [← heq, h1, h2, List.take_append_drop]
  have h4 : 4 ≤ ((buf.drop 7).take 4).length := by
    simp only [List.length_take, List.length_drop]
    omega
  rw [hsplit]
  have hp := parse_header_append ((buf.drop 7).take 4) h4
  rw [List.take_take] at hp
  norm_num at hp
  exact hp

theorem parse_header_build (n : Nat) (body : List Nat) (hn : n < 4294967296) :
    parse_header (HEADER_MAGIC ++ pack4BE n ++ body) = .ok n := by
  rw [List.append_assoc, parse_header_append _ (by
    rw [List.length_append, pack4BE_length]
    omega)]
  rw [List.take_left' (pack4BE_length n), unpack4BE_pack4BE n hn]

/-- A stand-in digest function for instantiating the external SHA-256
collaborator in concrete evaluations: 32 bytes, each below 256, varying
with the seed length.  (Real SHA-256 satisfies the same two properties the
theorems assume.) -/
def sha256Stub (x : List Nat) : List Nat := List.replicate 32 (x.length % 256)

theorem sha256Stub_length (x : List Nat) : (sha256Stub x).length = 32 := by
  simp [sha256Stub]

theorem sha256Stub_bytes (x : List Nat) : ∀ b ∈ sha256Stub x, b < 256 := by
  intro b hb
  simp [sha256Stub, List.mem_replicate] at hb
  omega

theorem utf8Encode_replicate (n : Nat) :
    utf8Encode (List.replicate n 65) = List.replicate n 65 := by
  induction n with
  | zero => rfl
  | succ n ih =>
    rw [List.replicate_succ]
    have h1 : utf8Encode (65 :: List.replicate n 65) =
        utf8EncodeChar 65 ++ utf8Encode (List.replicate n 65) := by
      simp [utf8Encode]
    rw [h1, ih]
    rfl

/-- C6 (amended): provided the encrypted body is shorter than 2^32 bytes,
`build_payload` returns exactly the 7-byte magic `LSBMSG1`, a 4-byte
big-endian length equal to the body's byte length, then the body;
`parse_header` on the first 11 bytes of any buffer fails with the
"no embedded payload found" error exactly when the leading 7 bytes differ
from the magic and otherwise returns the big-endian value of bytes 7..10;
and parsing a built payload returns the body's byte length. -/
theorem frame_build_parse (h : List Nat → List Nat) (msg : List Nat)
    (pw : Option (List Nat)) (buf : List Nat) (hbuf : 11 ≤ buf.length)
    (hlen : (xor_encrypt h (utf8Encode msg) pw).length < 4294967296) :
    (build_payload h msg pw =
      .ok (HEADER_MAGIC ++ pack4BE (xor_encrypt h (utf8Encode msg) pw).length ++
        xor_encrypt h (utf8Encode msg) pw)) ∧
    (parse_header (buf.take 11) =
      if buf.take 7 = HEADER_MAGIC then .ok (unpack4BE ((buf.drop 7).take 4))
      else .error .noPayload) ∧
    parse_header (HEADER_MAGIC ++ pack4BE (xor_encrypt h (utf8Encode msg) pw).length ++
        xor_encrypt h (utf8Encode msg) pw) =
      .ok (xor_encrypt h (utf8Encode msg) pw).length := by
  refine ⟨build_payload_eq h msg pw hlen, ?_, parse_header_build _ _ hlen⟩
  by_cases heq : buf.take 7 = HEADER_MAGIC
  · rw [if_pos heq]
    exact parse_header_take11_ok buf hbuf heq
  · rw [if_neg heq]
    exact parse_header_take11_noPayload buf heq

/-- Witness for C6 at a concrete message, password and buffer. -/
theorem frame_build_parse_witness :
    (11 ≤ ([76, 83, 66, 77, 83, 71, 49, 0, 0, 0, 5, 9] : List Nat).length) ∧
    ((xor_encrypt sha256Stub (utf8Encode [72, 105]) (some [107])).length < 4294967296) ∧
    ((build_payload sha256Stub [72, 105] (some [107]) =
      .ok (HEADER_MAGIC ++
        pack4BE (xor_encrypt sha256Stub (utf8Encode [72, 105]) (some [107])).length ++
        xor_encrypt sha256Stub (utf8Encode [72, 105]) (some [107]))) ∧
    (parse_header (([76, 83, 66, 77, 83, 71, 49, 0, 0, 0, 5, 9] : List Nat).take 11) =
      if ([76, 83, 66, 77, 83, 71, 49, 0, 0, 0, 5, 9] : List Nat).take 7 = HEADER_MAGIC then
        .ok (unpack4BE ((([76, 83, 66, 77, 83, 71, 49, 0, 0, 0, 5, 9] : List Nat).drop 7).take 4))
      else .error .noPayload) ∧
    parse_header (HEADER_MAGIC ++
        pack4BE (xor_encrypt sha256Stub (utf8Encode [72, 105]) (some [107])).length ++
        xor_encrypt sha256Stub (utf8Encode [72, 105]) (some [107])) =
      .ok (xor_encrypt sha256Stub (utf8Encode [72, 105]) (some [107])).length) :=
  ⟨by decide, by decide,
    frame_build_parse sha256Stub [72, 105] (some [107])
      [76, 83, 66, 77, 83, 71, 49, 0, 0, 0, 5, 9] (by decide) (by decide)⟩

/-- C6 counterexample: on a message of 2^32 characters the 4-byte length
field cannot represent the body length, and `build_payload` fails with the
pack-overflow error instead of returning a framed payload. -/
theorem frame_build_counterexample :
    build_payload sha256Stub (List.replicate 4294967296 65) none =
      .error .packOverflow := by
  simp only [build_payload, xor_encrypt_none, utf8Encode_replicate, List.length_replicate]
  rw [if_neg (by omega)]

/-! ## Lemmas about the embedding walk -/

theorem getD_set_self (l : List Nat) (i : Nat) (v : Nat) (h : i < l.length) :
    (l.set i v).getD i 0 = v := by
  rw [List.getD_eq_getElem?_getD, List.getElem?_set_self h]
  rfl

theorem getD_set_ne (l : List Nat) (i j v : Nat) (h : i ≠ j) :
    (l.set i v).getD j 0 = l.getD j 0 := by
  rw [List.getD_eq_getElem?_getD, List.getElem?_set_ne h, ← List.getD_eq_getElem?_getD]

theorem embedChunk_eq (v chunk bpc : Nat) (hc : chunk < 2 ^ bpc) :
    embedChunk v ((1 <<< bpc) - 1) chunk = 2 ^ bpc * (v / 2 ^ bpc) + chunk := by
  unfold embedChunk
  rw [Nat.one_shiftLeft, Nat.and_pow_two_sub_one_eq_mod]
  have hv : v - v % 2 ^ bpc = 2 ^ bpc * (v / 2 ^ bpc) := by
    have := Nat.div_add_mod v (2 ^ bpc)
    omega
  rw [hv, ← Nat.mul_add_lt_is_or hc]

theorem embedChunk_and (v chunk bpc : Nat) (hc : chunk < 2 ^ bpc) :
    embedChunk v ((1 <<< bpc) - 1) chunk &&& ((1 <<< bpc) - 1) = chunk := by
  rw [embedChunk_eq v chunk bpc hc, Nat.one_shiftLeft, Nat.and_pow_two_sub_one_eq_mod,
    Nat.mul_add_mod]
  exact Nat.mod_eq_of_lt hc

theorem embedChunk_shiftRight (v chunk bpc : Nat) (hc : chunk < 2 ^ bpc) :
    embedChunk v ((1 <<< bpc) - 1) chunk >>> bpc = v >>> bpc := by
  rw [embedChunk_eq v chunk bpc hc, Nat.shiftRight_eq_div_pow, Nat.shiftRight_eq_div_pow,
    Nat.mul_add_div (Nat.two_pow_pos bpc), Nat.div_eq_of_lt hc]
  omega

theorem sliceBits_append (p : List Nat) (k a b : Nat) :
    sliceBits p k a ++ sliceBits p (k + a) b = sliceBits p k (a + b) := by
  unfold sliceBits
  rw [List.take_add]
  congr 2
  rw [List.drop_drop]

theorem sliceBits_zero (p : List Nat) (k : Nat) : sliceBits p k 0 = [] := by
  simp [sliceBits]

theorem pixelBits_length (px idxs : List Nat) (bpc : Nat) :
    (idxs.flatMap (fun ci => bitsOf bpc (px.getD ci 0 &&& ((1 <<< bpc) - 1)))).length =
      idxs.length * bpc := by
  induction idxs with
  | nil => simp
  | cons ci rest ih =>
    rw [List.flatMap_cons, List.length_append, bitsOf_length, ih, List.length_cons]
    ring

theorem extract_lsb_bits_cons (px : List Nat) (rest : List (List Nat))
    (idxs : List Nat) (bpc : Nat) :
    extract_lsb_bits (px :: rest) idxs bpc =
      idxs.flatMap (fun ci => bitsOf bpc (px.getD ci 0 &&& ((1 <<< bpc) - 1))) ++
        extract_lsb_bits rest idxs bpc := by
  simp [extract_lsb_bits]

theorem extract_lsb_bits_length (pixels : List (List Nat)) (idxs : List Nat) (bpc : Nat) :
    (extract_lsb_bits pixels idxs bpc).length = pixels.length * idxs.length * bpc := by
  induction pixels with
  | nil => simp [extract_lsb_bits]
  | cons px rest ih =>
    rw [extract_lsb_bits_cons, List.length_append, pixelBits_length, ih, List.length_cons]
    ring

theorem embedPixel_spec (bpc : Nat) (p : List Nat) :
    ∀ (idxs px : List Nat) (k : Nat),
    idxs.Nodup → (∀ i ∈ idxs, i < px.length) →
    k ≤ p.length * 8 → bpc ∣ (p.length * 8 - k) →
    (embedPixel bpc idxs px ⟨p, k⟩).2 =
        ⟨p, k + min (p.length * 8 - k) (idxs.length * bpc)⟩ ∧
    (embedPixel bpc idxs px ⟨p, k⟩).1.length = px.length ∧
    (∀ j, j ∉ idxs →
      (embedPixel bpc idxs px ⟨p, k⟩).1.getD j 0 = px.getD j 0) ∧
    (∀ j, (embedPixel bpc idxs px ⟨p, k⟩).1.getD j 0 >>> bpc = px.getD j 0 >>> bpc) ∧
    (idxs.flatMap (fun ci => bitsOf bpc
        ((embedPixel bpc idxs px ⟨p, k⟩).1.getD ci 0 &&& ((1 <<< bpc) - 1)))).take
        (min (p.length * 8 - k) (idxs.length * bpc)) =
      sliceBits p k (min (p.length * 8 - k) (idxs.length * bpc)) := by
  intro idxs
  induction idxs with
  | nil =>
    intro px k _ _ _ _
    simp [embedPixel, sliceBits_zero]
  | cons ci rest ih =>
    intro px k hnd hin hk hdvd
    by_cases hrem : p.length * 8 - k < bpc
    · have hR0 : p.length * 8 - k = 0 := Nat.eq_zero_of_dvd_of_lt hdvd hrem
      have hread : BitReader.read ⟨p, k⟩ bpc = (none, ⟨p, k⟩) :=
        BitReader.read_none _ _ (by
          unfold BitReader.remaining_bits BitReader.total_bits
          simp only
          omega)
      have hmin : min (p.length * 8 - k) ((ci :: rest).length * bpc) = 0 := by omega
      rw [hmin]
      simp only [embedPixel, hread, Nat.add_zero, List.take_zero, sliceBits_zero]
      simp
    · push_neg at hrem
      have hread := BitReader.read_spec p k bpc (by omega)
      have hchunk_lt : msbValue (sliceBits p k bpc) < 2 ^ bpc := by
        have hle := sliceBits_le_one p k bpc
        have hlen := sliceBits_length p k bpc (by omega)
        have := msbValue_lt _ hle
        rw [hlen] at this
        exact this
      have hci : ci < px.length := hin ci (by simp)
      have hnotin : ci ∉ rest := (List.nodup_cons.mp hnd).1
      have IH := ih
        (px.set ci (embedChunk (px.getD ci 0) ((1 <<< bpc) - 1)
          (msbValue (sliceBits p k bpc))))
        (k + bpc)
        (List.nodup_cons.mp hnd).2
        (fun i hi => by rw [List.length_set]; exact hin i (by simp [hi]))
        (by omega)
        (by
          have : p.length * 8 - (k + bpc) = (p.length * 8 - k) - bpc := by omega
          rw [this]
          exact Nat.dvd_sub' hdvd (Nat.dvd_refl bpc))
      obtain ⟨IH1, IH2, IH3, IH4, IH5⟩ := IH
      have hstep : embedPixel bpc (ci :: rest) px ⟨p, k⟩ =
          embedPixel bpc rest
            (px.set ci (embedChunk (px.getD ci 0) ((1 <<< bpc) - 1)
              (msbValue (sliceBits p k bpc)))) ⟨p, k + bpc⟩ := by
        simp only [embedPixel, hread]
      have hmin : min (p.length * 8 - k) ((ci :: rest).length * bpc) =
          bpc + min (p.length * 8 - (k + bpc)) (rest.length * bpc) := by
        simp only [List.length_cons]
        have hx : (rest.length + 1) * bpc = rest.length * bpc + bpc := by ring
        omega
      have hcival : (embedPixel bpc rest
          (px.set ci (embedChunk (px.getD ci 0) ((1 <<< bpc) - 1)
            (msbValue (sliceBits p k bpc)))) ⟨p, k + bpc⟩).1.getD ci 0 =
          embedChunk (px.getD ci 0) ((1 <<< bpc) - 1) (msbValue (sliceBits p k bpc)) := by
        rw [IH3 ci hnotin]
        exact getD_set_self px ci _ hci
      refine ⟨?_, ?_, ?_, ?_, ?_⟩
      · rw [hstep, IH1, hmin]
        congr 1
        omega
      · rw [hstep, IH2, List.length_set]
      · intro j hj
        rw [hstep, IH3 j (fun hmem => hj (by simp [hmem]))]
        exact getD_set_ne px ci j _ (fun heq => hj (by simp [heq]))
      · intro j
        rw [hstep, IH4 j]
        by_cases hji : ci = j
        · subst hji
          rw [getD_set_self px ci _ hci]
          exact embedChunk_shiftRight _ _ bpc hchunk_lt
        · rw [getD_set_ne px ci j _ hji]
      · rw [hstep, hmin, List.flatMap_cons, hcival,
          embedChunk_and _ _ bpc hchunk_lt]
        have hbits : bitsOf bpc (msbValue (sliceBits p k bpc)) = sliceBits p k bpc := by
          have hlen := sliceBits_length p k bpc (by omega)
          have := bitsOf_msbValue (sliceBits p k bpc) (sliceBits_le_one p k bpc)
          rw [hlen] at this
          exact this
        rw [hbits]
        rw [show bpc + min (p.length * 8 - (k + bpc)) (rest.length * bpc) =
          (sliceBits p k bpc).length +
            min (p.length * 8 - (k + bpc)) (rest.length * bpc) from by
            rw [sliceBits_length p k bpc (by omega)]]
        rw [List.take_append, IH5, sliceBits_append]
        rw [sliceBits_length p k bpc (by omega)]

theorem embedWalk_spec (bpc : Nat) (p : List Nat) (idxs : List Nat)
    (hnd : idxs.Nodup) (hdvd8 : bpc ∣ p.length * 8) :
    ∀ (pixels : List (List Nat)) (k : Nat),
    (∀ px ∈ pixels, ∀ i ∈ idxs, i < px.length) →
    k ≤ p.length * 8 → bpc ∣ k →
    p.length * 8 - k ≤ pixels.length * idxs.length * bpc →
    (embedWalk bpc idxs pixels ⟨p, k⟩).2.1 = ⟨p, p.length * 8⟩ ∧
    (embedWalk bpc idxs pixels ⟨p, k⟩).1.length = pixels.length ∧
    (∀ n, ((embedWalk bpc idxs pixels ⟨p, k⟩).1.getD n []).length =
      (pixels.getD n []).length) ∧
    (∀ n j, j ∉ idxs →
      ((embedWalk bpc idxs pixels ⟨p, k⟩).1.getD n []).getD j 0 =
        (pixels.getD n []).getD j 0) ∧
    (∀ n j, ((embedWalk bpc idxs pixels ⟨p, k⟩).1.getD n []).getD j 0 >>> bpc =
      (pixels.getD n []).getD j 0 >>> bpc) ∧
    (∀ n, p.length * 8 ≤ k + n * (idxs.length * bpc) →
      (embedWalk bpc idxs pixels ⟨p, k⟩).1.getD n [] = pixels.getD n []) ∧
    (extract_lsb_bits (embedWalk bpc idxs pixels ⟨p, k⟩).1 idxs bpc).take
        (p.length * 8 - k) =
      sliceBits p k (p.length * 8 - k) := by
  intro pixels
  induction pixels with
  | nil =>
    intro k _ hk _ hcap
    have hk8 : k = p.length * 8 := by simp at hcap; omega
    subst hk8
    simp [embedWalk, sliceBits_zero, extract_lsb_bits]
  | cons px rest ih =>
    intro k hch hk hdvdk hcap
    by_cases hkend : k < p.length * 8
    · have hb : (BitReader.mk p k).has_bits = true := by
        unfold BitReader.has_bits BitReader.total_bits
        simp only [decide_eq_true_eq]
        omega
      have hstep : embedWalk bpc idxs (px :: rest) ⟨p, k⟩ =
          ((embedPixel bpc idxs px ⟨p, k⟩).1 ::
            (embedWalk bpc idxs rest (embedPixel bpc idxs px ⟨p, k⟩).2).1,
            (embedWalk bpc idxs rest (embedPixel bpc idxs px ⟨p, k⟩).2).2.1,
            (if (embedPixel bpc idxs px ⟨p, k⟩).1 ≠ px then 1 else 0) +
              (embedWalk bpc idxs rest (embedPixel bpc idxs px ⟨p, k⟩).2).2.2) := by
        simp only [embedWalk, hb, if_true]
      have hdvdR : bpc ∣ p.length * 8 - k := Nat.dvd_sub' hdvd8 hdvdk
      have HP := embedPixel_spec bpc p idxs px k hnd
        (hch px (by simp)) hk hdvdR
      obtain ⟨HP1, HP2, HP3, HP4, HP5⟩ := HP
      have hdvdt : bpc ∣ min (p.length * 8 - k) (idxs.length * bpc) := by
        rcases le_or_lt (idxs.length * bpc) (p.length * 8 - k) with hmle | hmle
        · rw [min_eq_right hmle]
          exact dvd_mul_left bpc idxs.length
        · rw [min_eq_left (le_of_lt hmle)]
          exact hdvdR
      have hksum : k + min (p.length * 8 - k) (idxs.length * bpc) ≤ p.length * 8 := by
        omega
      have IH := ih (k + min (p.length * 8 - k) (idxs.length * bpc))
        (fun q hq => hch q (by simp [hq]))
        hksum
        (Nat.dvd_add hdvdk hdvdt)
        (by
          rcases le_or_lt (idxs.length * bpc) (p.length * 8 - k) with hmle | hmle
          · rw [min_eq_right hmle]
            simp only [List.length_cons] at hcap
            have hx : (rest.length + 1) * idxs.length * bpc =
                rest.length * idxs.length * bpc + idxs.length * bpc := by ring
            omega
          · rw [min_eq_left (le_of_lt hmle)]
            omega)
      rw [HP1] at hstep
      obtain ⟨IH1, IH2, IH3, IH4, IH5, IH6, IH7⟩ := IH
      rw [hstep]
      refine ⟨IH1, ?_, ?_, ?_, ?_, ?_, ?_⟩
      · simp only [List.length_cons, IH2]
      · intro n
        cases n with
        | zero => simpa using HP2
        | succ n => simpa using IH3 n
      · intro n j hj
        cases n with
        | zero => simpa using HP3 j hj
        | succ n => simpa using IH4 n j hj
      · intro n j
        cases n with
        | zero => simpa using HP4 j
        | succ n => simpa using IH5 n j
      · intro n hn
        cases n with
        | zero =>
          exfalso
          simp at hn
          omega
        | succ n =>
          have : p.length * 8 ≤ k + min (p.length * 8 - k) (idxs.length * bpc) +
              n * (idxs.length * bpc) := by
            rcases le_or_lt (idxs.length * bpc) (p.length * 8 - k) with hmle | hmle
            · rw [min_eq_right hmle]
              simp only [Nat.succ_mul] at hn
              omega
            · rw [min_eq_left (le_of_lt hmle)]
              omega
          simpa using IH6 n this
      · rw [extract_lsb_bits_cons]
        rcases le_or_lt (idxs.length * bpc) (p.length * 8 - k) with hmle | hmle
        · -- the pixel is fully written
          have hmin : min (p.length * 8 - k) (idxs.length * bpc) = idxs.length * bpc :=
            min_eq_right hmle
          rw [hmin] at HP5 IH7
          rw [hmin]
          have hfull : idxs.flatMap (fun ci => bitsOf bpc
              (((embedPixel bpc idxs px ⟨p, k⟩).1).getD ci 0 &&& ((1 <<< bpc) - 1))) =
              sliceBits p k (idxs.length * bpc) := by
            rw [← HP5]
            exact (List.take_of_length_le (by rw [pixelBits_length])).symm
          rw [show p.length * 8 - k =
            (idxs.flatMap (fun ci => bitsOf bpc
              (((embedPixel bpc idxs px ⟨p, k⟩).1).getD ci 0 &&& ((1 <<< bpc) - 1)))).length +
            (p.length * 8 - (k + idxs.length * bpc)) from by
            rw [pixelBits_length]
            omega]
          rw [List.take_append, IH7, hfull, sliceBits_append]
          congr 1
          rw [sliceBits_length p k (idxs.length * bpc) (by omega)]
        · -- the payload ends inside this pixel
          have hmin : min (p.length * 8 - k) (idxs.length * bpc) = p.length * 8 - k :=
            min_eq_left (le_of_lt hmle)
          rw [hmin] at HP5
          rw [List.take_append_eq_append_take]
          rw [show p.length * 8 - k -
            (idxs.flatMap (fun ci => bitsOf bpc
              (((embedPixel bpc idxs px ⟨p, k⟩).1).getD ci 0 &&& ((1 <<< bpc) - 1)))).length
            = 0 from by
            rw [pixelBits_length]
            omega]
          rw [List.take_zero, List.append_nil]
          exact HP5
    · push_neg at hkend
      have hk8 : k = p.length * 8 := by omega
      have hb : (BitReader.mk p k).has_bits = false := by
        unfold BitReader.has_bits BitReader.total_bits
        simp only [decide_eq_false_iff_not]
        omega
      have hstep : embedWalk bpc idxs (px :: rest) ⟨p, k⟩ =
          (px :: rest, ⟨p, k⟩, 0) := by
        simp only [embedWalk, hb]
        rfl
      rw [hstep, hk8]
      refine ⟨rfl, rfl, fun n => rfl, fun n j _ => rfl, fun n j => rfl,
        fun n _ => rfl, ?_⟩
      simp [sliceBits_zero]

/-! ## Assembling `hide_message` and `extract_message` -/

theorem map_and_one (l : List Nat) (hl : ∀ x ∈ l, x ≤ 1) : l.map (· &&& 1) = l := by
  induction l with
  | nil => rfl
  | cons x t ih =>
    rw [List.map_cons, ih (fun y hy => hl y (List.mem_cons_of_mem x hy))]
    have hx := hl x (by simp)
    have : x &&& 1 = x % 2 := Nat.and_one_is_mod x
    have : x &&& 1 = x := by omega
    rw [this]

theorem packBits_bytesToBits (q : List Nat) (hq : ∀ b ∈ q, b < 256) :
    packBits (bytesToBits q) = q := by
  induction q with
  | nil => simp [bytesToBits, packBits_nil]
  | cons b t ih =>
    have hcons : bytesToBits (b :: t) = bitsOf 8 b ++ bytesToBits t := by
      simp [bytesToBits]
    rw [hcons, packBits_append_eight _ _ (bitsOf_length 8 b)]
    rw [ih (fun y hy => hq y (List.mem_cons_of_mem b hy))]
    unfold packByte
    rw [bitsOf_length, Nat.sub_self, Nat.shiftLeft_zero, msbValue_bitsOf]
    rw [Nat.mod_eq_of_lt (by have := hq b (by simp); norm_num; omega)]

theorem bytesToBits_append (a b : List Nat) :
    bytesToBits (a ++ b) = bytesToBits a ++ bytesToBits b := by
  simp [bytesToBits]

theorem bytesToBits_take (p : List Nat) (n : Nat) (h : n ≤ p.length) :
    (bytesToBits p).take (n * 8) = bytesToBits (p.take n) := by
  conv_lhs => rw [← List.take_append_drop n p]
  rw [bytesToBits_append, List.take_append_of_le_length (by
    rw [bytesToBits_length, List.length_take]
    have : min n p.length = n := min_eq_left h
    omega)]
  rw [List.take_of_length_le (by
    rw [bytesToBits_length, List.length_take]
    have : min n p.length = n := min_eq_left h
    omega)]

theorem bytesToBits_drop (p : List Nat) (n : Nat) (h : n ≤ p.length) :
    (bytesToBits p).drop (n * 8) = bytesToBits (p.drop n) := by
  conv_lhs => rw [← List.take_append_drop n p]
  rw [bytesToBits_append, List.drop_left' (by
    rw [bytesToBits_length, List.length_take]
    have : min n p.length = n := min_eq_left h
    omega)]

theorem validate_bits_per_channel_ok (v : Nat) (hv : 1 ≤ v ∧ v ≤ 2) :
    validate_bits_per_channel v = .ok v := by
  unfold validate_bits_per_channel MIN_BITS_PER_CHANNEL MAX_BITS_PER_CHANNEL
  rw [if_neg (not_not_intro hv)]

theorem validate_bits_per_channel_err (v : Nat) (hv : ¬(1 ≤ v ∧ v ≤ 2)) :
    validate_bits_per_channel v = .error .badBitsPerChannel := by
  unfold validate_bits_per_channel MIN_BITS_PER_CHANNEL MAX_BITS_PER_CHANNEL
  rw [if_pos hv]

theorem sliceBits_full (p : List Nat) : sliceBits p 0 (p.length * 8) = bytesToBits p := by
  unfold sliceBits
  rw [List.drop_zero]
  exact List.take_of_length_le (by rw [bytesToBits_length])

theorem capacity_as_product (meta : ImageMetadata) (pixels : List (List Nat))
    (bpc : Nat) (hpix : meta.total_pixels = pixels.length) :
    meta.capacity_bits bpc = pixels.length * meta.embed_indexes.length * bpc := by
  unfold ImageMetadata.capacity_bits ImageMetadata.channels_count
  rw [hpix]

theorem bpc_dvd_mul8 (bpc n : Nat) (hbpc : 1 ≤ bpc ∧ bpc ≤ 2) : bpc ∣ n * 8 := by
  obtain ⟨h1, h2⟩ := hbpc
  interval_cases bpc
  · exact one_dvd _
  · exact ⟨n * 4, by ring⟩

theorem hide_message_spec (h : List Nat → List Nat) (pixels : List (List Nat))
    (meta : ImageMetadata) (msg : List Nat) (pw : Option (List Nat)) (bpc : Nat)
    (Hlen : ∀ x, (h x).length = 32)
    (hlen32 : (utf8Encode msg).length < 4294967296)
    (hbpc : 1 ≤ bpc ∧ bpc ≤ 2)
    (hne : meta.embed_indexes ≠ [])
    (hnd : meta.embed_indexes.Nodup)
    (hch : ∀ px ∈ pixels, ∀ i ∈ meta.embed_indexes, i < px.length)
    (hpix : meta.total_pixels = pixels.length)
    (hcap : (HEADER_SIZE + (utf8Encode msg).length) * 8 ≤ meta.capacity_bits bpc) :
    hide_message h pixels meta msg pw bpc =
      .ok ((embedWalk bpc meta.embed_indexes pixels
          ⟨HEADER_MAGIC ++ pack4BE (xor_encrypt h (utf8Encode msg) pw).length ++
            xor_encrypt h (utf8Encode msg) pw, 0⟩).1,
        (embedWalk bpc meta.embed_indexes pixels
          ⟨HEADER_MAGIC ++ pack4BE (xor_encrypt h (utf8Encode msg) pw).length ++
            xor_encrypt h (utf8Encode msg) pw, 0⟩).2.2) := by
  have hElen : (xor_encrypt h (utf8Encode msg) pw).length = (utf8Encode msg).length :=
    xor_encrypt_length h _ pw Hlen
  have hplen : (HEADER_MAGIC ++ pack4BE (xor_encrypt h (utf8Encode msg) pw).length ++
      xor_encrypt h (utf8Encode msg) pw).length = HEADER_SIZE + (utf8Encode msg).length := by
    simp only [List.length_append, pack4BE_length, HEADER_MAGIC_length, HEADER_SIZE_eq, hElen]
  have hbuild := build_payload_eq h msg pw (by omega)
  have hcap' : (HEADER_MAGIC ++ pack4BE (xor_encrypt h (utf8Encode msg) pw).length ++
      xor_encrypt h (utf8Encode msg) pw).length * 8 - 0 ≤
      pixels.length * meta.embed_indexes.length * bpc := by
    rw [hplen, ← capacity_as_product meta pixels bpc hpix]
    omega
  have HW := embedWalk_spec bpc
    (HEADER_MAGIC ++ pack4BE (xor_encrypt h (utf8Encode msg) pw).length ++
      xor_encrypt h (utf8Encode msg) pw)
    meta.embed_indexes hnd (bpc_dvd_mul8 bpc _ hbpc) pixels 0 hch
    (by omega) (dvd_zero bpc) hcap'
  have hdone : (embedWalk bpc meta.embed_indexes pixels
      ⟨HEADER_MAGIC ++ pack4BE (xor_encrypt h (utf8Encode msg) pw).length ++
        xor_encrypt h (utf8Encode msg) pw, 0⟩).2.1.has_bits = false := by
    rw [HW.1]
    unfold BitReader.has_bits BitReader.total_bits
    simp
  have hcapcond : ¬(BitReader.total_bits
      ⟨HEADER_MAGIC ++ pack4BE (xor_encrypt h (utf8Encode msg) pw).length ++
        xor_encrypt h (utf8Encode msg) pw, 0⟩ > meta.capacity_bits bpc) := by
    unfold BitReader.total_bits
    simp only
    rw [hplen]
    omega
  simp only [hide_message, validate_bits_per_channel_ok bpc hbpc, hbuild,
    if_neg hne, if_neg hcapcond, hdone, Bool.false_eq_true, if_false]

/-- The byte buffer `build_payload` produces on its success path, named for
the statements below. -/
def builtPayload (h : List Nat → List Nat) (msg : List Nat)
    (pw : Option (List Nat)) : List Nat :=
  HEADER_MAGIC ++ pack4BE (xor_encrypt h (utf8Encode msg) pw).length ++
    xor_encrypt h (utf8Encode msg) pw

theorem builtPayload_length (h : List Nat → List Nat) (msg : List Nat)
    (pw : Option (List Nat)) (Hlen : ∀ x, (h x).length = 32) :
    (builtPayload h msg pw).length = HEADER_SIZE + (utf8Encode msg).length := by
  unfold builtPayload
  simp only [List.length_append, pack4BE_length, HEADER_MAGIC_length, HEADER_SIZE_eq,
    xor_encrypt_length h _ pw Hlen]

theorem builtPayload_bytes (h : List Nat → List Nat) (msg : List Nat)
    (pw : Option (List Nat)) (hmsg : ∀ c ∈ msg, ValidChar c)
    (Hbytes : ∀ x, ∀ b ∈ h x, b < 256) :
    ∀ b ∈ builtPayload h msg pw, b < 256 :=
  build_payload_bytes h msg pw hmsg Hbytes

theorem builtPayload_take11 (h : List Nat → List Nat) (msg : List Nat)
    (pw : Option (List Nat)) :
    (builtPayload h msg pw).take 11 =
      HEADER_MAGIC ++ pack4BE (xor_encrypt h (utf8Encode msg) pw).length := by
  unfold builtPayload
  exact List.take_left' (by rw [List.length_append, HEADER_MAGIC_length, pack4BE_length])

theorem builtPayload_drop11 (h : List Nat → List Nat) (msg : List Nat)
    (pw : Option (List Nat)) :
    (builtPayload h msg pw).drop 11 = xor_encrypt h (utf8Encode msg) pw := by
  unfold builtPayload
  exact List.drop_left' (by rw [List.length_append, HEADER_MAGIC_length, pack4BE_length])

theorem hide_message_spec_payload (h : List Nat → List Nat) (pixels : List (List Nat))
    (meta : ImageMetadata) (msg : List Nat) (pw : Option (List Nat)) (bpc : Nat)
    (Hlen : ∀ x, (h x).length = 32)
    (hlen32 : (utf8Encode msg).length < 4294967296)
    (hbpc : 1 ≤ bpc ∧ bpc ≤ 2)
    (hne : meta.embed_indexes ≠ [])
    (hnd : meta.embed_indexes.Nodup)
    (hch : ∀ px ∈ pixels, ∀ i ∈ meta.embed_indexes, i < px.length)
    (hpix : meta.total_pixels = pixels.length)
    (hcap : (HEADER_SIZE + (utf8Encode msg).length) * 8 ≤ meta.capacity_bits bpc) :
    hide_message h pixels meta msg pw bpc =
      .ok ((embedWalk bpc meta.embed_indexes pixels ⟨builtPayload h msg pw, 0⟩).1,
        (embedWalk bpc meta.embed_indexes pixels ⟨builtPayload h msg pw, 0⟩).2.2) :=
  hide_message_spec h pixels meta msg pw bpc Hlen hlen32 hbpc hne hnd hch hpix hcap

theorem extract_after_hide (h : List Nat → List Nat) (pixels : List (List Nat))
    (meta : ImageMetadata) (msg : List Nat) (pw pw2 : Option (List Nat)) (bpc : Nat)
    (Hlen : ∀ x, (h x).length = 32)
    (Hbytes : ∀ x, ∀ b ∈ h x, b < 256)
    (hmsg : ∀ c ∈ msg, ValidChar c)
    (hlen32 : (utf8Encode msg).length < 4294967296)
    (hbpc : 1 ≤ bpc ∧ bpc ≤ 2)
    (hne : meta.embed_indexes ≠ [])
    (hnd : meta.embed_indexes.Nodup)
    (hch : ∀ px ∈ pixels, ∀ i ∈ meta.embed_indexes, i < px.length)
    (hpix : meta.total_pixels = pixels.length)
    (hcap : (HEADER_SIZE + (utf8Encode msg).length) * 8 ≤ meta.capacity_bits bpc) :
    extract_message h
      (embedWalk bpc meta.embed_indexes pixels ⟨builtPayload h msg pw, 0⟩).1 meta pw2 bpc =
      decrypt_payload h (xor_encrypt h (utf8Encode msg) pw) pw2 := by
  have hElen : (xor_encrypt h (utf8Encode msg) pw).length = (utf8Encode msg).length :=
    xor_encrypt_length h _ pw Hlen
  have hplen := builtPayload_length h msg pw Hlen
  have hpbytes := builtPayload_bytes h msg pw hmsg Hbytes
  have hcap' : (builtPayload h msg pw).length * 8 - 0 ≤
      pixels.length * meta.embed_indexes.length * bpc := by
    rw [hplen, ← capacity_as_product meta pixels bpc hpix]
    omega
  have HW := embedWalk_spec bpc (builtPayload h msg pw) meta.embed_indexes hnd
    (bpc_dvd_mul8 bpc _ hbpc) pixels 0 hch (by omega) (dvd_zero bpc) hcap'
  obtain ⟨-, HW2, -, -, -, -, HW7⟩ := HW
  rw [Nat.sub_zero, sliceBits_full] at HW7
  have hstreamlen : (extract_lsb_bits
      (embedWalk bpc meta.embed_indexes pixels ⟨builtPayload h msg pw, 0⟩).1
      meta.embed_indexes bpc).length =
      pixels.length * meta.embed_indexes.length * bpc := by
    rw [extract_lsb_bits_length, HW2]
  have hp88 : 88 ≤ (builtPayload h msg pw).length * 8 := by
    rw [hplen, HEADER_SIZE_eq]
    omega
  have htake88 : (extract_lsb_bits
      (embedWalk bpc meta.embed_indexes pixels ⟨builtPayload h msg pw, 0⟩).1
      meta.embed_indexes bpc).take 88 =
      bytesToBits ((builtPayload h msg pw).take 11) := by
    rw [← bytesToBits_take (builtPayload h msg pw) 11 (by
      rw [hplen, HEADER_SIZE_eq]; omega)]
    rw [← HW7, List.take_take]
    congr 1
    omega
  have hheader : bits_to_bytes (extract_lsb_bits
      (embedWalk bpc meta.embed_indexes pixels ⟨builtPayload h msg pw, 0⟩).1
      meta.embed_indexes bpc) (HEADER_SIZE * 8) =
      .ok ((builtPayload h msg pw).take 11,
        (extract_lsb_bits
          (embedWalk bpc meta.embed_indexes pixels ⟨builtPayload h msg pw, 0⟩).1
          meta.embed_indexes bpc).drop 88) := by
    have hc := (bits_to_bytes_contract (extract_lsb_bits
      (embedWalk bpc meta.embed_indexes pixels ⟨builtPayload h msg pw, 0⟩).1
      meta.embed_indexes bpc) 88).1 (by
        rw [hstreamlen, ← capacity_as_product meta pixels bpc hpix]
        omega)
    rw [show HEADER_SIZE * 8 = 88 from rfl, hc, htake88,
      map_and_one _ (bytesToBits_le_one _),
      packBits_bytesToBits _ (fun b hb => hpbytes b (List.mem_of_mem_take hb))]
  have hparse : parse_header ((builtPayload h msg pw).take 11) =
      .ok (xor_encrypt h (utf8Encode msg) pw).length := by
    rw [builtPayload_take11]
    have hp := parse_header_build (xor_encrypt h (utf8Encode msg) pw).length []
      (by rw [hElen]; omega)
    rw [List.append_nil] at hp
    exact hp
  have hbody : bits_to_bytes ((extract_lsb_bits
      (embedWalk bpc meta.embed_indexes pixels ⟨builtPayload h msg pw, 0⟩).1
      meta.embed_indexes bpc).drop 88)
      ((xor_encrypt h (utf8Encode msg) pw).length * 8) =
      .ok (xor_encrypt h (utf8Encode msg) pw,
        ((extract_lsb_bits
          (embedWalk bpc meta.embed_indexes pixels ⟨builtPayload h msg pw, 0⟩).1
          meta.embed_indexes bpc).drop 88).drop
          ((xor_encrypt h (utf8Encode msg) pw).length * 8)) := by
    have hc := (bits_to_bytes_contract ((extract_lsb_bits
      (embedWalk bpc meta.embed_indexes pixels ⟨builtPayload h msg pw, 0⟩).1
      meta.embed_indexes bpc).drop 88)
      ((xor_encrypt h (utf8Encode msg) pw).length * 8)).1 (by
        rw [List.length_drop, hstreamlen, hElen,
          ← capacity_as_product meta pixels bpc hpix]
        rw [HEADER_SIZE_eq] at hcap
        omega)
    rw [hc]
    have htakeb : ((extract_lsb_bits
        (embedWalk bpc meta.embed_indexes pixels ⟨builtPayload h msg pw, 0⟩).1
        meta.embed_indexes bpc).drop 88).take
        ((xor_encrypt h (utf8Encode msg) pw).length * 8) =
        bytesToBits (xor_encrypt h (utf8Encode msg) pw) := by
      rw [List.take_drop]
      rw [show 88 + (xor_encrypt h (utf8Encode msg) pw).length * 8 =
        (builtPayload h msg pw).length * 8 from by
        rw [hplen, hElen, HEADER_SIZE_eq]; ring]
      rw [HW7]
      rw [show (88 : Nat) = 11 * 8 from rfl]
      rw [bytesToBits_drop (builtPayload h msg pw) 11 (by
        rw [hplen, HEADER_SIZE_eq]; omega)]
      rw [builtPayload_drop11]
    rw [htakeb, map_and_one _ (bytesToBits_le_one _),
      packBits_bytesToBits _ (fun b hb =>
        xor_encrypt_bytes h (utf8Encode msg) pw (utf8Encode_bytes msg hmsg) Hbytes b hb)]
  simp only [extract_message, validate_bits_per_channel_ok bpc hbpc, if_neg hne,
    hheader, hparse, hbody]

/-! ## Claim theorems -/

/-- C1 (amended): for every message of Unicode scalar values whose UTF-8
encoding is shorter than 2^32 bytes, every password (including none), every
`bits_per_channel` in {1, 2} and every pixel buffer (with the metadata
`_prepare_image` derives: consistent pixel count, distinct in-range
embeddable channel indices) whose capacity is at least the payload bit
length (header plus encoded message), extracting from the pixel buffer
produced by hiding returns the original message.  The length proviso is
forced by the 4-byte length field: `struct.pack(">I", ...)` raises on
longer bodies. -/
theorem hide_extract_roundtrip (h : List Nat → List Nat) (pixels : List (List Nat))
    (meta : ImageMetadata) (msg : List Nat) (pw : Option (List Nat)) (bpc : Nat)
    (Hlen : ∀ x, (h x).length = 32)
    (Hbytes : ∀ x, ∀ b ∈ h x, b < 256)
    (hmsg : ∀ c ∈ msg, ValidChar c)
    (hlen32 : (utf8Encode msg).length < 4294967296)
    (hbpc : 1 ≤ bpc ∧ bpc ≤ 2)
    (hne : meta.embed_indexes ≠ [])
    (hnd : meta.embed_indexes.Nodup)
    (hch : ∀ px ∈ pixels, ∀ i ∈ meta.embed_indexes, i < px.length)
    (hpix : meta.total_pixels = pixels.length)
    (hcap : (HEADER_SIZE + (utf8Encode msg).length) * 8 ≤ meta.capacity_bits bpc) :
    (hide_message h pixels meta msg pw bpc).bind
      (fun out => extract_message h out.1 meta pw bpc) = .ok msg := by
  rw [hide_message_spec_payload h pixels meta msg pw bpc Hlen hlen32 hbpc hne hnd
    hch hpix hcap]
  simp only [Except.bind]
  rw [extract_after_hide h pixels meta msg pw pw bpc Hlen Hbytes hmsg hlen32 hbpc hne
    hnd hch hpix hcap]
  unfold decrypt_payload
  rw [xor_encrypt_cancel h _ pw Hlen, utf8Decode_encode msg hmsg]


/-- Witness for C1: a two-character message, a password, and a 40-pixel RGB
buffer at one bit per channel. -/
theorem hide_extract_roundtrip_witness :
    ((∀ c ∈ [72, 105], ValidChar c) ∧
      (utf8Encode [72, 105]).length < 4294967296 ∧
      (1 ≤ 1 ∧ 1 ≤ 2) ∧
      (ImageMetadata.mk 40 1 "RGB" [0, 1, 2]).embed_indexes ≠ [] ∧
      (ImageMetadata.mk 40 1 "RGB" [0, 1, 2]).embed_indexes.Nodup ∧
      (∀ px ∈ List.replicate 40 ([7, 200, 33] : List Nat),
        ∀ i ∈ (ImageMetadata.mk 40 1 "RGB" [0, 1, 2]).embed_indexes, i < px.length) ∧
      (ImageMetadata.mk 40 1 "RGB" [0, 1, 2]).total_pixels =
        (List.replicate 40 ([7, 200, 33] : List Nat)).length ∧
      (HEADER_SIZE + (utf8Encode [72, 105]).length) * 8 ≤
        (ImageMetadata.mk 40 1 "RGB" [0, 1, 2]).capacity_bits 1) ∧
    (hide_message sha256Stub (List.replicate 40 ([7, 200, 33] : List Nat))
        (ImageMetadata.mk 40 1 "RGB" [0, 1, 2]) [72, 105] (some [107]) 1).bind
      (fun out => extract_message sha256Stub out.1
        (ImageMetadata.mk 40 1 "RGB" [0, 1, 2]) (some [107]) 1) = .ok [72, 105] :=
  ⟨⟨by decide, by decide, by decide, by decide, by decide, by decide, by decide,
    by decide⟩,
    hide_extract_roundtrip sha256Stub (List.replicate 40 ([7, 200, 33] : List Nat))
      (ImageMetadata.mk 40 1 "RGB" [0, 1, 2]) [72, 105] (some [107]) 1
      sha256Stub_length sha256Stub_bytes (by decide) (by decide) (by decide)
      (by decide) (by decide) (by decide) (by decide) (by decide)⟩

/-- A replicate message of at least 2^32 characters makes `build_payload`,
and hence `hide_message`, fail with `packOverflow`, for any pixel buffer
and metadata. -/
theorem hide_packOverflow_of_big (h : List Nat → List Nat)
    (pixels : List (List Nat)) (meta : ImageMetadata) (n : Nat)
    (hn : 4294967296 ≤ n) :
    hide_message h pixels meta (List.replicate n 65) none 1 =
      .error .packOverflow := by
  have hbuild : build_payload h (List.replicate n 65) none =
      .error .packOverflow := by
    simp only [build_payload, xor_encrypt_none, utf8Encode_replicate,
      List.length_replicate]
    rw [if_neg (by omega)]
  simp only [hide_message, validate_bits_per_channel_ok 1 (by omega), hbuild]

/-- C1 counterexample: with a message of 2^32 characters and a pixel buffer
whose capacity exceeds the payload bit length (so the claim's hypotheses
hold), the round-trip as literally claimed fails — `hide_message` raises at
the 4-byte length field instead of embedding. -/
theorem hide_extract_roundtrip_counterexample :
    ((HEADER_SIZE + (utf8Encode (List.replicate 4294967296 65)).length) * 8 ≤
      (ImageMetadata.mk 34359738368 1 "RGB" [0, 1, 2]).capacity_bits 1) ∧
    (ImageMetadata.mk 34359738368 1 "RGB" [0, 1, 2]).total_pixels =
      (List.replicate 34359738368 ([0, 0, 0] : List Nat)).length ∧
    (∀ px ∈ List.replicate 34359738368 ([0, 0, 0] : List Nat),
      ∀ i ∈ (ImageMetadata.mk 34359738368 1 "RGB" [0, 1, 2]).embed_indexes,
        i < px.length) ∧
    (∀ c ∈ List.replicate 4294967296 65, ValidChar c) ∧
    (hide_message sha256Stub (List.replicate 34359738368 ([0, 0, 0] : List Nat))
        (ImageMetadata.mk 34359738368 1 "RGB" [0, 1, 2])
        (List.replicate 4294967296 65) none 1).bind
      (fun out => extract_message sha256Stub out.1
        (ImageMetadata.mk 34359738368 1 "RGB" [0, 1, 2]) none 1) ≠
      .ok (List.replicate 4294967296 65) := by
  refine ⟨?_, ?_, ?_, ?_, ?_⟩
  · rw [utf8Encode_replicate 4294967296, List.length_replicate]
    show (HEADER_SIZE + 4294967296) * 8 ≤ 34359738368 * 1 * 3 * 1
    rw [HEADER_SIZE_eq]
    omega
  · rw [List.length_replicate]
    show (34359738368 : Nat) * 1 = 34359738368
    omega
  · intro px hpx i hi
    rw [List.eq_of_mem_replicate hpx]
    simp only [List.mem_cons, List.not_mem_nil, or_false] at hi
    rcases hi with rfl | rfl | rfl <;> norm_num
  · intro c hc
    rw [List.eq_of_mem_replicate hc]
    exact ⟨by norm_num, Or.inl (by norm_num)⟩
  · rw [hide_packOverflow_of_big sha256Stub _ _ 4294967296 (by omega)]
    exact fun hcontra => Except.noConfusion hcontra

/-- C9: the post-walk defensive invariant is unreachable — for every
message, password, `bits_per_channel` in {1, 2}, and image (with
`_prepare_image`-consistent metadata) whose capacity is at least the
payload's bit length, `hide_message` never fails with the
"internal consistency failure: message bits not embedded" error: the
embedding walk always consumes the entire payload.  This holds even for
oversized messages, where the earlier length-field packing raises first. -/
theorem hide_no_internal_failure (h : List Nat → List Nat)
    (pixels : List (List Nat)) (meta : ImageMetadata) (msg : List Nat)
    (pw : Option (List Nat)) (bpc : Nat)
    (Hlen : ∀ x, (h x).length = 32)
    (hbpc : 1 ≤ bpc ∧ bpc ≤ 2)
    (hne : meta.embed_indexes ≠ [])
    (hnd : meta.embed_indexes.Nodup)
    (hch : ∀ px ∈ pixels, ∀ i ∈ meta.embed_indexes, i < px.length)
    (hpix : meta.total_pixels = pixels.length)
    (hcap : (HEADER_SIZE + (utf8Encode msg).length) * 8 ≤ meta.capacity_bits bpc) :
    hide_message h pixels meta msg pw bpc ≠ .error .internalNotEmbedded := by
  by_cases hlen32 : (utf8Encode msg).length < 4294967296
  · rw [hide_message_spec_payload h pixels meta msg pw bpc Hlen hlen32 hbpc hne hnd
      hch hpix hcap]
    exact fun hcontra => Except.noConfusion hcontra
  · have hbuild : build_payload h msg pw = .error .packOverflow := by
      unfold build_payload
      rw [if_neg]
      rw [xor_encrypt_length h _ pw Hlen]
      omega
    simp only [hide_message, validate_bits_per_channel_ok bpc hbpc, hbuild]
    intro hcontra
    exact absurd (Except.error.inj hcontra) (by simp)

/-- Witness for C9: the C1 witness configuration embeds fully, so the
defensive error is not hit. -/
theorem hide_no_internal_failure_witness :
    ((1 ≤ 1 ∧ 1 ≤ 2) ∧
      (ImageMetadata.mk 40 1 "RGB" [0, 1, 2]).embed_indexes ≠ [] ∧
      (ImageMetadata.mk 40 1 "RGB" [0, 1, 2]).embed_indexes.Nodup ∧
      (∀ px ∈ List.replicate 40 ([7, 200, 33] : List Nat),
        ∀ i ∈ (ImageMetadata.mk 40 1 "RGB" [0, 1, 2]).embed_indexes, i < px.length) ∧
      (ImageMetadata.mk 40 1 "RGB" [0, 1, 2]).total_pixels =
        (List.replicate 40 ([7, 200, 33] : List Nat)).length ∧
      (HEADER_SIZE + (utf8Encode [72, 105]).length) * 8 ≤
        (ImageMetadata.mk 40 1 "RGB" [0, 1, 2]).capacity_bits 1) ∧
    hide_message sha256Stub (List.replicate 40 ([7, 200, 33] : List Nat))
        (ImageMetadata.mk 40 1 "RGB" [0, 1, 2]) [72, 105] (some [107]) 1 ≠
      .error .internalNotEmbedded :=
  ⟨⟨by decide, by decide, by decide, by decide, by decide, by decide⟩,
    hide_no_internal_failure sha256Stub (List.replicate 40 ([7, 200, 33] : List Nat))
      (ImageMetadata.mk 40 1 "RGB" [0, 1, 2]) [72, 105] (some [107]) 1
      sha256Stub_length (by decide) (by decide) (by decide) (by decide) (by decide)
      (by decide)⟩

/-- C7: frame effect of embedding — whenever `hide_message` succeeds, the
output buffer has one pixel per input pixel; every channel keeps all bits
above the low `bits_per_channel` bits; channels outside the embeddable
index list (in particular the alpha channel, which `_prepare_image` never
includes) are never written; and every pixel from the point where the
payload reader runs out of bits on is left completely unchanged. -/
theorem hide_frame_effect (h : List Nat → List Nat) (pixels : List (List Nat))
    (meta : ImageMetadata) (msg : List Nat) (pw : Option (List Nat)) (bpc : Nat)
    (Hlen : ∀ x, (h x).length = 32)
    (hlen32 : (utf8Encode msg).length < 4294967296)
    (hbpc : 1 ≤ bpc ∧ bpc ≤ 2)
    (hne : meta.embed_indexes ≠ [])
    (hnd : meta.embed_indexes.Nodup)
    (hch : ∀ px ∈ pixels, ∀ i ∈ meta.embed_indexes, i < px.length)
    (hpix : meta.total_pixels = pixels.length)
    (hcap : (HEADER_SIZE + (utf8Encode msg).length) * 8 ≤ meta.capacity_bits bpc) :
    ∀ out, hide_message h pixels meta msg pw bpc = .ok out →
      out.1.length = pixels.length ∧
      (∀ n j, (out.1.getD n []).getD j 0 >>> bpc =
        (pixels.getD n []).getD j 0 >>> bpc) ∧
      (∀ n j, j ∉ meta.embed_indexes →
        (out.1.getD n []).getD j 0 = (pixels.getD n []).getD j 0) ∧
      (∀ n, (HEADER_SIZE + (utf8Encode msg).length) * 8 ≤
          n * (meta.embed_indexes.length * bpc) →
        out.1.getD n [] = pixels.getD n []) := by
  intro out hout
  rw [hide_message_spec_payload h pixels meta msg pw bpc Hlen hlen32 hbpc hne hnd
    hch hpix hcap] at hout
  obtain rfl := (Except.ok.inj hout).symm
  have hplen := builtPayload_length h msg pw Hlen
  have hcap' : (builtPayload h msg pw).length * 8 - 0 ≤
      pixels.length * meta.embed_indexes.length * bpc := by
    rw [hplen, ← capacity_as_product meta pixels bpc hpix]
    omega
  have HW := embedWalk_spec bpc (builtPayload h msg pw) meta.embed_indexes hnd
    (bpc_dvd_mul8 bpc _ hbpc) pixels 0 hch (by omega) (dvd_zero bpc) hcap'
  refine ⟨HW.2.1, fun n j => HW.2.2.2.2.1 n j, fun n j hj => HW.2.2.2.1 n j hj,
    fun n hn => HW.2.2.2.2.2.1 n ?_⟩
  rw [hplen]
  omega

/-- The concrete pixel buffer produced by hiding "Hi" with password [107]
in 40 copies of the RGB pixel [7, 200, 33] at one bit per channel; named
for the statement below. -/
def framePix : List (List Nat) :=
  [[6, 201, 32], [6, 201, 33], [6, 200, 32], [7, 200, 33], [6, 200, 33],
   [7, 200, 33], [6, 200, 32], [6, 201, 32], [6, 201, 32], [6, 201, 33],
   [6, 201, 32], [7, 200, 33], [6, 200, 33], [7, 200, 33], [6, 200, 32],
   [7, 201, 33], [6, 200, 33], [7, 200, 32], [6, 201, 32], [6, 200, 32],
   [6, 200, 32], [6, 200, 32], [6, 200, 32], [6, 200, 32], [6, 200, 32],
   [6, 200, 32], [6, 200, 32], [6, 200, 32], [6, 200, 33], [6, 200, 33],
   [6, 200, 33], [7, 200, 33], [6, 201, 33], [6, 201, 33], [6, 200, 33],
   [7, 200, 33], [7, 200, 33], [7, 200, 33], [7, 200, 33], [7, 200, 33]]

/-- Witness for C7: hiding "Hi" with a password in 40 grey-ish RGB pixels at
one bit per channel succeeds with the concrete buffer `framePix`, and the
frame conditions hold of it. -/
theorem hide_frame_effect_witness :
    (hide_message sha256Stub (List.replicate 40 ([7, 200, 33] : List Nat))
        (ImageMetadata.mk 40 1 "RGB" [0, 1, 2]) [72, 105] (some [107]) 1 =
      .ok (framePix, 30)) ∧
    framePix.length = (List.replicate 40 ([7, 200, 33] : List Nat)).length ∧
    (∀ n j, (framePix.getD n []).getD j 0 >>> 1 =
      ((List.replicate 40 ([7, 200, 33] : List Nat)).getD n []).getD j 0 >>> 1) ∧
    (∀ n j, j ∉ (ImageMetadata.mk 40 1 "RGB" [0, 1, 2]).embed_indexes →
      (framePix.getD n []).getD j 0 =
        ((List.replicate 40 ([7, 200, 33] : List Nat)).getD n []).getD j 0) ∧
    (∀ n, (HEADER_SIZE + (utf8Encode [72, 105]).length) * 8 ≤
        n * ((ImageMetadata.mk 40 1 "RGB" [0, 1, 2]).embed_indexes.length * 1) →
      framePix.getD n [] = (List.replicate 40 ([7, 200, 33] : List Nat)).getD n []) :=
  ⟨rfl,
    hide_frame_effect sha256Stub (List.replicate 40 ([7, 200, 33] : List Nat))
      (ImageMetadata.mk 40 1 "RGB" [0, 1, 2]) [72, 105] (some [107]) 1
      sha256Stub_length (by decide) (by decide) (by decide) (by decide) (by decide)
      (by decide) (by decide) (framePix, 30) rfl⟩

/-- C8 (amended): over-capacity fail-fast — for every message whose UTF-8
encoding is shorter than 2^32 bytes (the length-field packing raises first
otherwise), every password and image, if the payload's total bit length
(header plus encoded message) exceeds the image's capacity at the chosen
`bits_per_channel`, `hide_message` fails with the size-mismatch error;
the returned buffer is the error alone, so no pixel is modified and no
output is produced. -/
theorem hide_over_capacity (h : List Nat → List Nat) (pixels : List (List Nat))
    (meta : ImageMetadata) (msg : List Nat) (pw : Option (List Nat)) (bpc : Nat)
    (Hlen : ∀ x, (h x).length = 32)
    (hlen32 : (utf8Encode msg).length < 4294967296)
    (hbpc : 1 ≤ bpc ∧ bpc ≤ 2)
    (hne : meta.embed_indexes ≠ [])
    (hover : meta.capacity_bits bpc < (HEADER_SIZE + (utf8Encode msg).length) * 8) :
    hide_message h pixels meta msg pw bpc = .error .capacityExceeded := by
  have hElen : (xor_encrypt h (utf8Encode msg) pw).length = (utf8Encode msg).length :=
    xor_encrypt_length h _ pw Hlen
  have hbuild := build_payload_eq h msg pw (by omega)
  have hplen : (HEADER_MAGIC ++ pack4BE (xor_encrypt h (utf8Encode msg) pw).length ++
      xor_encrypt h (utf8Encode msg) pw).length =
      HEADER_SIZE + (utf8Encode msg).length :=
    builtPayload_length h msg pw Hlen
  have hcond : BitReader.total_bits
      ⟨HEADER_MAGIC ++ pack4BE (xor_encrypt h (utf8Encode msg) pw).length ++
        xor_encrypt h (utf8Encode msg) pw, 0⟩ > meta.capacity_bits bpc := by
    unfold BitReader.total_bits
    simp only
    rw [hplen]
    omega
  simp only [hide_message, validate_bits_per_channel_ok bpc hbpc, hbuild,
    if_neg hne, if_pos hcond]

/-- Witness for C8: a 13-byte payload does not fit in a single RGB pixel at
one bit per channel, and hiding fails with the capacity error. -/
theorem hide_over_capacity_witness :
    ((utf8Encode [72, 105]).length < 4294967296 ∧
      (1 ≤ 1 ∧ 1 ≤ 2) ∧
      (ImageMetadata.mk 1 1 "RGB" [0, 1, 2]).embed_indexes ≠ [] ∧
      (ImageMetadata.mk 1 1 "RGB" [0, 1, 2]).capacity_bits 1 <
        (HEADER_SIZE + (utf8Encode [72, 105]).length) * 8) ∧
    hide_message sha256Stub [[0, 0, 0]] (ImageMetadata.mk 1 1 "RGB" [0, 1, 2])
      [72, 105] none 1 = .error .capacityExceeded :=
  ⟨⟨by decide, by decide, by decide, by decide⟩,
    hide_over_capacity sha256Stub [[0, 0, 0]] (ImageMetadata.mk 1 1 "RGB" [0, 1, 2])
      [72, 105] none 1 sha256Stub_length (by decide) (by decide) (by decide)
      (by decide)⟩

/-- C8 counterexample: for a message of 2^32 characters on a one-pixel
image the over-capacity condition holds, yet `hide_message` fails with the
length-field packing error, not the size-mismatch validation error the
claim promises. -/
theorem hide_over_capacity_counterexample :
    ((ImageMetadata.mk 1 1 "RGB" [0, 1, 2]).capacity_bits 1 <
      (HEADER_SIZE + (utf8Encode (List.replicate 4294967296 65)).length) * 8) ∧
    hide_message sha256Stub [[0, 0, 0]] (ImageMetadata.mk 1 1 "RGB" [0, 1, 2])
      (List.replicate 4294967296 65) none 1 = .error .packOverflow ∧
    (Except.error StegoError.packOverflow :
        Except StegoError (List (List Nat) × Nat)) ≠ .error .capacityExceeded := by
  refine ⟨?_, hide_packOverflow_of_big sha256Stub _ _ 4294967296 (by omega), ?_⟩
  · rw [utf8Encode_replicate 4294967296, List.length_replicate]
    show (1 : Nat) * 1 * 3 * 1 < (HEADER_SIZE + 4294967296) * 8
    rw [HEADER_SIZE_eq]
    omega
  · intro hcontra
    exact absurd (Except.error.inj hcontra) (by simp)

/-- C2 (amended): extracting with a wrong password never silently returns
the original message, PROVIDED the stored body decrypted with the wrong
password differs from the encoded message — i.e. the two passwords' key
streams actually differ on the body.  Password distinctness alone does not
suffice: for the empty message the body is empty, every key stream acts as
the identity on it, and extraction silently returns the original "". -/
theorem wrong_password_no_silent_match (h : List Nat → List Nat)
    (pixels : List (List Nat)) (meta : ImageMetadata) (msg : List Nat)
    (pw1 pw2 : Option (List Nat)) (bpc : Nat)
    (Hlen : ∀ x, (h x).length = 32)
    (Hbytes : ∀ x, ∀ b ∈ h x, b < 256)
    (hmsg : ∀ c ∈ msg, ValidChar c)
    (hlen32 : (utf8Encode msg).length < 4294967296)
    (hbpc : 1 ≤ bpc ∧ bpc ≤ 2)
    (hne : meta.embed_indexes ≠ [])
    (hnd : meta.embed_indexes.Nodup)
    (hch : ∀ px ∈ pixels, ∀ i ∈ meta.embed_indexes, i < px.length)
    (hpix : meta.total_pixels = pixels.length)
    (hcap : (HEADER_SIZE + (utf8Encode msg).length) * 8 ≤ meta.capacity_bits bpc)
    (hdiff : xor_encrypt h (xor_encrypt h (utf8Encode msg) pw1) pw2 ≠
      utf8Encode msg) :
    (hide_message h pixels meta msg pw1 bpc).bind
      (fun out => extract_message h out.1 meta pw2 bpc) ≠ .ok msg := by
  rw [hide_message_spec_payload h pixels meta msg pw1 bpc Hlen hlen32 hbpc hne hnd
    hch hpix hcap]
  simp only [Except.bind]
  rw [extract_after_hide h pixels meta msg pw1 pw2 bpc Hlen Hbytes hmsg hlen32 hbpc
    hne hnd hch hpix hcap]
  unfold decrypt_payload
  cases hdec : utf8Decode (xor_encrypt h (xor_encrypt h (utf8Encode msg) pw1) pw2) with
  | none =>
    exact fun hcontra => Except.noConfusion hcontra
  | some s =>
    show Except.ok s ≠ Except.ok msg
    intro hcontra
    have hs : s = msg := Except.ok.inj hcontra
    subst hs
    exact hdiff (utf8Encode_of_decode _ s hdec).symm

/-- Witness for C2: "Hi" hidden with password [97] and extracted with
password [98, 98]; the two key streams differ on the body, so extraction
does not return "Hi". -/
theorem wrong_password_no_silent_match_witness :
    ((∀ c ∈ [72, 105], ValidChar c) ∧
      (utf8Encode [72, 105]).length < 4294967296 ∧
      (1 ≤ 1 ∧ 1 ≤ 2) ∧
      (ImageMetadata.mk 40 1 "RGB" [0, 1, 2]).embed_indexes ≠ [] ∧
      (ImageMetadata.mk 40 1 "RGB" [0, 1, 2]).embed_indexes.Nodup ∧
      (∀ px ∈ List.replicate 40 ([7, 200, 33] : List Nat),
        ∀ i ∈ (ImageMetadata.mk 40 1 "RGB" [0, 1, 2]).embed_indexes, i < px.length) ∧
      (ImageMetadata.mk 40 1 "RGB" [0, 1, 2]).total_pixels =
        (List.replicate 40 ([7, 200, 33] : List Nat)).length ∧
      (HEADER_SIZE + (utf8Encode [72, 105]).length) * 8 ≤
        (ImageMetadata.mk 40 1 "RGB" [0, 1, 2]).capacity_bits 1 ∧
      xor_encrypt sha256Stub
          (xor_encrypt sha256Stub (utf8Encode [72, 105]) (some [97]))
          (some [98, 98]) ≠ utf8Encode [72, 105]) ∧
    (hide_message sha256Stub (List.replicate 40 ([7, 200, 33] : List Nat))
        (ImageMetadata.mk 40 1 "RGB" [0, 1, 2]) [72, 105] (some [97]) 1).bind
      (fun out => extract_message sha256Stub out.1
        (ImageMetadata.mk 40 1 "RGB" [0, 1, 2]) (some [98, 98]) 1) ≠
      .ok [72, 105] :=
  ⟨⟨by decide, by decide, by decide, by decide, by decide, by decide, by decide,
    by decide, by decide⟩,
    wrong_password_no_silent_match sha256Stub
      (List.replicate 40 ([7, 200, 33] : List Nat))
      (ImageMetadata.mk 40 1 "RGB" [0, 1, 2]) [72, 105] (some [97]) (some [98, 98]) 1
      sha256Stub_length sha256Stub_bytes (by decide) (by decide) (by decide)
      (by decide) (by decide) (by decide) (by decide) (by decide) (by decide)⟩

/-- C2 counterexample: for the empty message and the distinct passwords
"correct" and "wrong", hide-then-extract with the wrong password silently
returns the original empty message, because every key stream acts as the
identity on an empty body. -/
theorem wrong_password_counterexample :
    (some [99, 111, 114, 114, 101, 99, 116] : Option (List Nat)) ≠
      some [119, 114, 111, 110, 103] ∧
    (hide_message sha256Stub (List.replicate 15 ([0, 0, 0] : List Nat))
        (ImageMetadata.mk 15 1 "RGB" [0, 1, 2]) []
        (some [99, 111, 114, 114, 101, 99, 116]) 2).bind
      (fun out => extract_message sha256Stub out.1
        (ImageMetadata.mk 15 1 "RGB" [0, 1, 2])
        (some [119, 114, 111, 110, 103]) 2) = .ok [] :=
  ⟨by decide, rfl⟩

/-- C10: the empty-string password is treated identically to no password —
`xor_encrypt` returns the data unchanged for both (Python's `if not
password` treats `""` and `None` alike), so a payload hidden with password
"" is stored in the clear and extracting it with no password returns the
original message. -/
theorem empty_password_identity (h : List Nat → List Nat) (data : List Nat)
    (pixels : List (List Nat)) (meta : ImageMetadata) (msg : List Nat) (bpc : Nat)
    (Hlen : ∀ x, (h x).length = 32)
    (Hbytes : ∀ x, ∀ b ∈ h x, b < 256)
    (hmsg : ∀ c ∈ msg, ValidChar c)
    (hlen32 : (utf8Encode msg).length < 4294967296)
    (hbpc : 1 ≤ bpc ∧ bpc ≤ 2)
    (hne : meta.embed_indexes ≠ [])
    (hnd : meta.embed_indexes.Nodup)
    (hch : ∀ px ∈ pixels, ∀ i ∈ meta.embed_indexes, i < px.length)
    (hpix : meta.total_pixels = pixels.length)
    (hcap : (HEADER_SIZE + (utf8Encode msg).length) * 8 ≤ meta.capacity_bits bpc) :
    xor_encrypt h data (some []) = data ∧
    xor_encrypt h data none = data ∧
    (hide_message h pixels meta msg (some []) bpc).bind
      (fun out => extract_message h out.1 meta none bpc) = .ok msg := by
  refine ⟨rfl, rfl, ?_⟩
  rw [hide_message_spec_payload h pixels meta msg (some []) bpc Hlen hlen32 hbpc hne
    hnd hch hpix hcap]
  simp only [Except.bind]
  rw [extract_after_hide h pixels meta msg (some []) none bpc Hlen Hbytes hmsg hlen32
    hbpc hne hnd hch hpix hcap]
  unfold decrypt_payload
  rw [xor_encrypt_empty, xor_encrypt_none, utf8Decode_encode msg hmsg]

/-- Witness for C10: byte string [1, 2, 3] is unchanged under the empty and
absent passwords, and "Hi" hidden with password "" is extracted by
passwordless extraction. -/
theorem empty_password_identity_witness :
    ((∀ c ∈ [72, 105], ValidChar c) ∧
      (utf8Encode [72, 105]).length < 4294967296 ∧
      (1 ≤ 1 ∧ 1 ≤ 2) ∧
      (ImageMetadata.mk 40 1 "RGB" [0, 1, 2]).embed_indexes ≠ [] ∧
      (ImageMetadata.mk 40 1 "RGB" [0, 1, 2]).embed_indexes.Nodup ∧
      (∀ px ∈ List.replicate 40 ([7, 200, 33] : List Nat),
        ∀ i ∈ (ImageMetadata.mk 40 1 "RGB" [0, 1, 2]).embed_indexes, i < px.length) ∧
      (ImageMetadata.mk 40 1 "RGB" [0, 1, 2]).total_pixels =
        (List.replicate 40 ([7, 200, 33] : List Nat)).length ∧
      (HEADER_SIZE + (utf8Encode [72, 105]).length) * 8 ≤
        (ImageMetadata.mk 40 1 "RGB" [0, 1, 2]).capacity_bits 1) ∧
    xor_encrypt sha256Stub [1, 2, 3] (some []) = [1, 2, 3] ∧
    xor_encrypt sha256Stub [1, 2, 3] none = [1, 2, 3] ∧
    (hide_message sha256Stub (List.replicate 40 ([7, 200, 33] : List Nat))
        (ImageMetadata.mk 40 1 "RGB" [0, 1, 2]) [72, 105] (some []) 1).bind
      (fun out => extract_message sha256Stub out.1
        (ImageMetadata.mk 40 1 "RGB" [0, 1, 2]) none 1) = .ok [72, 105] :=
  ⟨⟨by decide, by decide, by decide, by decide, by decide, by decide, by decide,
    by decide⟩,
    empty_password_identity sha256Stub [1, 2, 3]
      (List.replicate 40 ([7, 200, 33] : List Nat))
      (ImageMetadata.mk 40 1 "RGB" [0, 1, 2]) [72, 105] 1
      sha256Stub_length sha256Stub_bytes (by decide) (by decide) (by decide)
      (by decide) (by decide) (by decide) (by decide) (by decide)⟩
